import Mathlib

/-!
A shallow embedding, in Lean 4, of the core data-processing operations of the
vowelspace repository: the automatic column detector
(`src/utils/column_detector.py`), the tabular ingestion pipeline and the
audio/TextGrid formant extraction pipeline (`src/utils/data_processor.py`),
and the per-vowel outlier filter (`src/app.py`).

Conventions used throughout:
* pandas/numpy floats are modelled as exact rationals (`ℚ`); `NaN`/missing
  cells are modelled with `Option`;
* Python strings are Lean `String`s; the Python `str.lower` / `str.strip`
  operations are re-implemented over `List Char` so that all definitions are
  executable and kernel-reducible (core `String.toLower` is not);
* external collaborators (the parselmouth acoustic library, the filesystem)
  are modelled as explicit inputs: a formant track is a function from a time
  point to the two formant readings, a batch job carries the outcome of the
  external load/extract calls.
-/

namespace VowelSpace

/-! ### String helpers (Python `str.lower`, `str.strip`, prefix tests) -/

/-- ASCII lower-casing of one character (model of Python `str.lower` on the
ASCII names handled by the detector). -/
def lowerChar (c : Char) : Char :=
  if 65 ≤ c.toNat ∧ c.toNat ≤ 90 then Char.ofNat (c.toNat + 32) else c

/-- ASCII upper-casing of one character (model of Python `str.upper`). -/
def upperChar (c : Char) : Char :=
  if 97 ≤ c.toNat ∧ c.toNat ≤ 122 then Char.ofNat (c.toNat - 32) else c

/-- Lower-case a string, character by character. -/
def lowerStr (s : String) : String := ⟨s.data.map lowerChar⟩

/-- Upper-case a string, character by character. -/
def upperStr (s : String) : String := ⟨s.data.map upperChar⟩

/-- Whitespace characters stripped by Python `str.strip` (ASCII part). -/
def isWSChar (c : Char) : Bool :=
  c == ' ' || c == '\t' || c == '\n' || c == '\r' || c == '\x0b' || c == '\x0c'

/-- Model of Python `str.strip`: drop leading and trailing whitespace. -/
def trimStr (s : String) : String :=
  ⟨((s.data.dropWhile isWSChar).reverse.dropWhile isWSChar).reverse⟩

/-- `col.lower().strip()` — the normalisation `ColumnDetector.detect_columns`
applies to every column name before pattern matching. -/
def normName (s : String) : String := trimStr (lowerStr s)

/-- Prefix test on character lists. -/
def listPre : List Char → List Char → Bool
  | [], _ => true
  | _ :: _, [] => false
  | a :: as, b :: bs => a == b && listPre as bs

/-- `p` is a prefix of `s` (model of an unanchored `re.match`). -/
def strPre (p s : String) : Bool := listPre p.data s.data

/-- Substring membership test (used to state facts about error messages). -/
def listSub (needle : List Char) : List Char → Bool
  | [] => needle.isEmpty
  | c :: cs => listPre needle (c :: cs) || listSub needle cs

/-- `n` occurs as a contiguous substring of `h`. -/
def containsStr (h n : String) : Bool := listSub n.data h.data

/-- First-occurrence deduplication, keeping the order of first appearance
(model of iterating a Python `dict` built with possibly-duplicate keys). -/
def dedupAux {α : Type} [DecidableEq α] (seen : List α) : List α → List α
  | [] => []
  | x :: xs => if x ∈ seen then dedupAux seen xs else x :: dedupAux (x :: seen) xs

/-- `dedupFirst l` keeps the first occurrence of each element of `l`. -/
def dedupFirst {α : Type} [DecidableEq α] (l : List α) : List α := dedupAux [] l

/-! ### Rational-list helpers (pandas `min`/`max`/`mean`/`diff`) -/

/-- Sum of a list of rationals. -/
def sumQ (l : List ℚ) : ℚ := l.foldl (· + ·) 0

/-- Minimum of a list of rationals (`0` on the empty list, which never occurs
at a use site: callers guard on non-emptiness as the source does). -/
def minQ : List ℚ → ℚ
  | [] => 0
  | x :: xs => xs.foldl min x

/-- Maximum of a list of rationals (same convention as `minQ`). -/
def maxQ : List ℚ → ℚ
  | [] => 0
  | x :: xs => xs.foldl max x

/-- Model of `series.diff().dropna()`: the differences of consecutive entries
where both are non-null. -/
def diffsQ : List (Option ℚ) → List ℚ
  | [] => []
  | [_] => []
  | a :: b :: rest =>
    (match a, b with
     | some x, some y => [y - x]
     | _, _ => []) ++ diffsQ (b :: rest)

/-! ### The canonical fields and the name-pattern tables

`ColumnDetector.PATTERNS` in `src/utils/column_detector.py` associates to each
canonical field an ordered list of regular expressions, matched with
`re.match(pattern, col_lower, re.IGNORECASE)` against the lower-cased,
stripped column name.  `re.match` anchors at the start only, so an
un-`$`-anchored pattern is a prefix pattern.  Since the subject string is
already lower-cased, each pattern is recorded here in lower case. -/

/-- The ten canonical fields, in the declaration order of `PATTERNS` (which is
also the pattern-phase processing order, Python dicts preserving insertion
order). -/
inductive Field : Type
  | F1 | F2 | F3 | vowel | speaker | native_language | time | duration | gender | age
deriving DecidableEq, Fintype

/-- The pattern-phase field order: the iteration order of
`ColumnDetector.PATTERNS.items()`. -/
def fieldOrder : List Field :=
  [.F1, .F2, .F3, .vowel, .speaker, .native_language, .time, .duration, .gender, .age]

/-- The canonical (standard) column name of each field — the dictionary keys
of `PATTERNS`, used as target names by `rename_columns`. -/
def canonicalName : Field → String
  | .F1 => "F1"
  | .F2 => "F2"
  | .F3 => "F3"
  | .vowel => "vowel"
  | .speaker => "speaker"
  | .native_language => "native_language"
  | .time => "time"
  | .duration => "duration"
  | .gender => "gender"
  | .age => "age"

/-- The shapes of regular expression occurring in `PATTERNS`:
`exact s` is `^s$`; `pre s` is an unanchored literal (hence a prefix match);
`sepPre a b` is `a[\s_-]?b` unanchored; `sepExact a b` is `^a[\s_-]?b$`. -/
inductive RPat : Type
  | exact (s : String)
  | pre (s : String)
  | sepPre (a b : String)
  | sepExact (a b : String)
deriving DecidableEq

/-- The strings an optional separator `[\s_-]?` can contribute. -/
def seps : List String := ["", " ", "\t", "\n", "\r", "\x0b", "\x0c", "_", "-"]

/-- All realisations of `a[\s_-]?b`. -/
def sepVariants (a b : String) : List String := seps.map (fun c => a ++ c ++ b)

/-- Whether one pattern matches a (lower-cased, stripped) column name. -/
def RPat.matchesName : RPat → String → Bool
  | .exact s, t => t == s
  | .pre s, t => strPre s t
  | .sepPre a b, t => (sepVariants a b).any (fun s => strPre s t)
  | .sepExact a b, t => (sepVariants a b).any (fun s => t == s)

/-- `ColumnDetector.PATTERNS`, field by field, pattern by pattern. -/
def patterns : Field → List RPat
  | .F1 =>
    [.exact "f1", .exact "f1", .sepPre "first" "formant", .sepPre "formant" "1",
     .sepPre "f1" "hz", .sepPre "f1" "(hz)", .sepPre "f1" "frequency",
     .pre "formant1", .pre "f1_hz"]
  | .F2 =>
    [.exact "f2", .exact "f2", .sepPre "second" "formant", .sepPre "formant" "2",
     .sepPre "f2" "hz", .sepPre "f2" "(hz)", .sepPre "f2" "frequency",
     .pre "formant2", .pre "f2_hz"]
  | .F3 =>
    [.exact "f3", .exact "f3", .sepPre "third" "formant", .sepPre "formant" "3",
     .sepPre "f3" "hz", .sepPre "f3" "(hz)", .sepPre "f3" "frequency",
     .pre "formant3", .pre "f3_hz"]
  | .vowel =>
    [.exact "vowel", .exact "phone", .exact "phoneme", .exact "label", .exact "segment",
     .sepPre "vowel" "label", .sepPre "phone" "label", .exact "ipa",
     .exact "sound", .exact "v", .exact "vow", .exact "symbol"]
  | .speaker =>
    [.exact "speaker", .exact "participant", .exact "subject", .exact "informant",
     .exact "talker", .sepPre "speaker" "id", .sepPre "subject" "id",
     .exact "spk", .exact "id", .exact "spkr", .sepPre "participant" "id"]
  | .native_language =>
    [.sepExact "native" "language", .exact "l1", .sepExact "first" "language",
     .sepExact "mother" "tongue", .exact "language", .exact "lang",
     .sepPre "native" "lang", .sepPre "l1" "language", .exact "l1lang"]
  | .time =>
    [.exact "time", .exact "t", .pre "timestamp", .sepPre "time" "point",
     .sepPre "time" "(s)", .sepPre "time" "(ms)", .pre "midpoint",
     .sepPre "duration" "time", .exact "sec", .exact "seconds", .pre "time_s"]
  | .duration =>
    [.exact "duration", .exact "dur", .pre "length", .sepPre "duration" "(s)",
     .sepPre "duration" "(ms)", .sepPre "vowel" "duration",
     .sepPre "segment" "duration", .pre "dur_s", .pre "dur_ms"]
  | .gender =>
    [.exact "gender", .exact "sex", .exact "m/f", .sepPre "speaker" "gender",
     .sepPre "participant" "gender", .exact "g"]
  | .age =>
    [.exact "age", .sepPre "speaker" "age", .sepPre "participant" "age",
     .sepPre "age" "(years)", .exact "yrs"]

/-- A column name matches a field when any of the field's patterns matches the
lower-cased, stripped name. -/
def fieldMatchesCol (f : Field) (c : String) : Bool :=
  (patterns f).any (fun p => p.matchesName (normName c))

/-! ### Column data and the detector's value heuristics

A dataframe is an ordered list of named columns.  A column is either of
numeric dtype (`nums`, entries `none` for NaN) or of object/string dtype
(`strs`, entries `none` for NaN). -/

/-- The contents of one pandas column, as far as the detector inspects it. -/
inductive ColData : Type
  | nums (vals : List (Option ℚ))
  | strs (vals : List (Option String))
deriving DecidableEq

/-- A dataframe: named columns in order. -/
abbrev DF := List (String × ColData)

/-- The expected value range per formant number used by
`_find_formant_by_value`: F1 200–1000 Hz, F2 800–3000 Hz, F3 1500–4000 Hz. -/
def formantRange : Nat → ℚ × ℚ
  | 1 => (200, 1000)
  | 2 => (800, 3000)
  | 3 => (1500, 4000)
  | _ => (0, 10000)

/-- Core loop of `ColumnDetector._find_formant_by_value`: the first unused
numeric column whose non-null mean lies in `[lo, hi]` and whose min/max lie in
`[lo * 0.5, hi * 1.5]`. -/
def findFormantLoop (lo hi : ℚ) (used : List String) : DF → Option String
  | [] => none
  | (c, d) :: rest =>
    if c ∈ used then findFormantLoop lo hi used rest
    else
      match d with
      | .strs _ => findFormantLoop lo hi used rest
      | .nums vs =>
        let nn := vs.filterMap id
        if nn.isEmpty then findFormantLoop lo hi used rest
        else if lo ≤ sumQ nn / nn.length ∧ sumQ nn / nn.length ≤ hi ∧
                minQ nn ≥ lo * (1/2) ∧ maxQ nn ≤ hi * (3/2) then some c
        else findFormantLoop lo hi used rest

/-- `ColumnDetector._find_formant_by_value`. -/
def findFormantByValue (df : DF) (formantNum : Nat) (used : List String) : Option String :=
  findFormantLoop (formantRange formantNum).1 (formantRange formantNum).2 used df

/-- `ColumnDetector._find_time_column`: the first unused numeric column that is
non-negative, bounded by 10000, and whose consecutive differences are ≥ 0 in
strictly more than 80% of the defined cases. -/
def findTimeColumn (used : List String) : DF → Option String
  | [] => none
  | (c, d) :: rest =>
    if c ∈ used then findTimeColumn used rest
    else
      match d with
      | .strs _ => findTimeColumn used rest
      | .nums vs =>
        let nn := vs.filterMap id
        if nn.isEmpty then findTimeColumn used rest
        else if minQ nn ≥ 0 ∧ maxQ nn < 10000 then
          let ds := diffsQ vs
          if 0 < ds.length ∧
             (((ds.filter (fun x => decide (0 ≤ x))).length : ℚ) / ds.length > 4/5) then some c
          else findTimeColumn used rest
        else findTimeColumn used rest

/-- The IPA vowel characters inspected by `_find_vowel_column`. -/
def heurVowelChars : List Char := "iɪeɛæaɑɒʌɔoʊuɯʏyøœɜəɘɵɤɐ".data

/-- The English/ARPABET vowel spellings inspected by `_find_vowel_column`. -/
def englishVowels : List String :=
  ["i", "e", "a", "o", "u", "ih", "eh", "ae", "ah", "ao", "uh", "uw",
   "iy", "ey", "ay", "oy", "aw", "ow"]

/-- `ColumnDetector._find_vowel_column`: the first unused string column with
2–30 distinct non-null values, mean string length ≤ 8, and a sample value
containing an IPA vowel character or spelling an English vowel. -/
def findVowelColumn (used : List String) : DF → Option String
  | [] => none
  | (c, d) :: rest =>
    if c ∈ used then findVowelColumn used rest
    else
      match d with
      | .nums _ => findVowelColumn used rest
      | .strs vs =>
        let nn := vs.filterMap id
        let u := (dedupFirst nn).length
        if 2 ≤ u ∧ u ≤ 30 then
          if nn.isEmpty then findVowelColumn used rest
          else if (sumQ (nn.map (fun s => (s.length : ℚ))) / nn.length) ≤ 8 then
            let sample := (dedupFirst nn).take 10
            if sample.any (fun v => (lowerStr v).data.any (fun ch => ch ∈ heurVowelChars)) then
              some c
            else if sample.any (fun v => lowerStr v ∈ englishVowels) then some c
            else findVowelColumn used rest
          else findVowelColumn used rest
        else findVowelColumn used rest

/-- `ColumnDetector._find_categorical_column`: the first unused string column
with 2–`maxUnique` distinct non-null values. -/
def findCategoricalColumn (maxUnique : Nat) (used : List String) : DF → Option String
  | [] => none
  | (c, d) :: rest =>
    if c ∈ used then findCategoricalColumn maxUnique used rest
    else
      match d with
      | .nums _ => findCategoricalColumn maxUnique used rest
      | .strs vs =>
        let u := (dedupFirst (vs.filterMap id)).length
        if 2 ≤ u ∧ u ≤ maxUnique then some c
        else findCategoricalColumn maxUnique used rest

/-! ### `ColumnDetector.detect_columns` -/

/-- Phase-1 inner loop: the first column (in order) that is not yet claimed
and whose normalised name matches the field's patterns. -/
def claimCol (f : Field) (used : List String) : List String → Option String
  | [] => none
  | c :: cs =>
    if c ∈ used then claimCol f used cs
    else if fieldMatchesCol f c then some c
    else claimCol f used cs

/-- Detection state: the `detected` association list (insertion-ordered, as
the Python dict) and the `used_columns` set (as a list). -/
structure DetSt : Type where
  det : List (Field × String)
  used : List String
deriving DecidableEq

/-- Pattern phase of `detect_columns`: for each field in `PATTERNS` order,
claim the first not-yet-used column matching one of its patterns. -/
def patPhase (cl : List String) : List Field → DetSt → DetSt
  | [], st => st
  | f :: fs, st =>
    match claimCol f st.used cl with
    | some c => patPhase cl fs ⟨st.det ++ [(f, c)], st.used ++ [c]⟩
    | none => patPhase cl fs st

/-- Lookup in the `detected` mapping (first entry with the given field). -/
def lookupF (f : Field) : List (Field × String) → Option String
  | [] => none
  | (g, c) :: rest => if g = f then some c else lookupF f rest

/-- One heuristic step of `detect_columns`: if the field is still undetected,
run its finder; on success claim the returned column. -/
def hGuard (f : Field) (find : List String → Option String) (st : DetSt) : DetSt :=
  if (lookupF f st.det).isSome then st
  else
    match find st.used with
    | some c => ⟨st.det ++ [(f, c)], st.used ++ [c]⟩
    | none => st

/-- `ColumnDetector.detect_columns`: pattern phase over all ten fields, then
value heuristics for F1, F2, F3, time, vowel and speaker, in that order. -/
def detect_columns (df : DF) : List (Field × String) :=
  let cl := dedupFirst (df.map Prod.fst)
  let st := patPhase cl fieldOrder ⟨[], []⟩
  let st := hGuard .F1 (fun u => findFormantByValue df 1 u) st
  let st := hGuard .F2 (fun u => findFormantByValue df 2 u) st
  let st := hGuard .F3 (fun u => findFormantByValue df 3 u) st
  let st := hGuard .time (fun u => findTimeColumn u df) st
  let st := hGuard .vowel (fun u => findVowelColumn u df) st
  let st := hGuard .speaker (fun u => findCategoricalColumn 50 u df) st
  st.det

/-- The reverse mapping `{actual column name ↦ field}` built by
`rename_columns` (`{v: k for k, v in column_mapping.items()}`; on duplicate
values the later entry wins, as in a Python dict comprehension). -/
def revLookup (m : List (Field × String)) (c : String) : Option Field :=
  ((m.filter (fun p => p.2 == c)).getLast?).map Prod.fst

/-- `ColumnDetector.rename_columns`: a copy of the dataframe with every
detected column renamed to its canonical name. -/
def rename_columns (df : DF) (m : List (Field × String)) : DF :=
  df.map (fun nd =>
    match revLookup m nd.1 with
    | some f => (canonicalName f, nd.2)
    | none => (nd.1, nd.2))

/-- The action of `rename_columns` on one column name. -/
def renameName (m : List (Field × String)) (n : String) : String :=
  match revLookup m n with
  | some f => canonicalName f
  | none => n

/-- Proof helper: a sequence of heuristic steps (field, finder) applied in
order, as the tail of `detect_columns` does. -/
def applyGuards : List (Field × (List String → Option String)) → DetSt → DetSt
  | [], st => st
  | q :: rest, st => applyGuards rest (hGuard q.1 q.2 st)

/-- The six heuristic steps of `detect_columns`, in order. -/
def heuristicSteps (df : DF) : List (Field × (List String → Option String)) :=
  [(.F1, fun u => findFormantByValue df 1 u),
   (.F2, fun u => findFormantByValue df 2 u),
   (.F3, fun u => findFormantByValue df 3 u),
   (.time, fun u => findTimeColumn u df),
   (.vowel, fun u => findVowelColumn u df),
   (.speaker, fun u => findCategoricalColumn 50 u df)]

/-- The error message raised by `validate_required_columns`: it names the
missing fields and restates the heuristic Hz ranges. -/
def missingColsMsg (missing : List Field) : String :=
  "필수 컬럼을 찾을 수 없습니다: " ++ String.intercalate ", " (missing.map canonicalName) ++
  ". F1과 F2 열이 있는지 확인하거나, 200-1000 Hz (F1) 및 800-3000 Hz (F2) 범위의 숫자 열이 있는지 확인하세요."

/-- `ColumnDetector.validate_required_columns`: `ValueError` when F1 or F2 is
undetected, else success. -/
def validate_required_columns (det : List (Field × String)) : Except String Unit :=
  let missing := [Field.F1, Field.F2].filter (fun f => (lookupF f det).isNone)
  if missing.isEmpty then .ok () else .error (missingColsMsg missing)

/-! ### Vowel-label utilities (`src/utils/data_processor.py`, lines 21–61) -/

/-- `ARPABET_VOWELS`. -/
def ARPABET_VOWELS : List String :=
  ["AA", "AE", "AH", "AO", "AW", "AY", "EH", "ER", "EY", "IH", "IY",
   "OW", "OY", "UH", "UW", "UX"]

/-- `IPA_VOWEL_CHARS` — built in the source as
`set(list('aeiouy') + list('ɪʊəɚɝɜɞʌɔɑæɒɛøœɶɨɯʏɐɤɵ') + list('iu y'))`;
note that the last summand contributes a space character. -/
def IPA_VOWEL_CHARS : List Char :=
  "aeiouy".data ++ "ɪʊəɚɝɜɞʌɔɑæɒɛøœɶɨɯʏɐɤɵ".data ++ "iu y".data

/-- A combining diacritical mark (Unicode block U+0300–U+036F); models the
category-`Mn` characters `_strip_diacritics` removes after NFD
normalisation, for the inputs this pipeline sees. -/
def isCombiningMark (c : Char) : Bool := 768 ≤ c.toNat && c.toNat ≤ 879

/-- `_strip_diacritics`. -/
def stripDiacritics (s : String) : String :=
  ⟨s.data.filter (fun c => !(isCombiningMark c))⟩

/-- ASCII digit test (for the `re.sub(r'\d', '', ...)` step). -/
def isDigitChar (c : Char) : Bool := 48 ≤ c.toNat && c.toNat ≤ 57

/-- ASCII letter test (the `A-Za-z` part of the keep-class regex). -/
def isAsciiLetter (c : Char) : Bool :=
  (65 ≤ c.toNat && c.toNat ≤ 90) || (97 ≤ c.toNat && c.toNat ≤ 122)

/-- The IPA letters kept (besides `A-Za-z`) by the regex
`[^A-Za-zɪʊəɚɝɜɞʌɔɑæɒɛøœɶɨɯʏɐɤɵ]` in `is_vowel_label`. -/
def ipaKeepClass : List Char := "ɪʊəɚɝɜɞʌɔɑæɒɛøœɶɨɯʏɐɤɵ".data

/-- `is_vowel_label`: a label is a vowel phone when, after removing stress and
length marks and diacritics, it is an ARPABET vowel code (upper-cased, digits
stripped) or consists entirely of IPA/roman vowel characters. -/
def is_vowel_label (label : String) : Bool :=
  if label.data.isEmpty then false
  else
    let s := trimStr label
    if s.data.isEmpty then false
    else
      let s : String := ⟨s.data.filter (fun c => !(c == 'ˈ' || c == 'ˌ' || c == 'ː' || c == ':'))⟩
      let s := stripDiacritics s
      let arp : String := ⟨(upperStr s).data.filter (fun c => !(isDigitChar c))⟩
      if arp ∈ ARPABET_VOWELS then true
      else
        let cleaned := lowerStr ⟨s.data.filter (fun c => isAsciiLetter c || c ∈ ipaKeepClass)⟩
        (!cleaned.data.isEmpty) && cleaned.data.all (fun ch => ch ∈ IPA_VOWEL_CHARS)

/-! ### Tabular ingestion (`process_csv_xlsx`, lines 100–153)

The file reading and the detection/rename stage (or, in raw mode, the
lower-casing of column names) happen before the cleaning stage the claims are
about; the outcome of that earlier stage is passed in explicitly: an
`Except String TDF` models `auto_detect_and_rename` either raising a
detection `ValueError` or returning the renamed dataframe.  Only the columns
the cleaning stage touches are modelled per row; a missing column is modelled
by `Cell.null` entries (plus the frame-level `hasVowel` flag for the
`'vowel' in df.columns` test, which is column- not row-level). -/

/-- One dataframe cell: missing (`NaN`/absent), numeric, or a non-numeric
object value (one that `pd.to_numeric(errors='coerce')` turns into NaN;
numeric strings that pandas would coerce are modelled directly as `num`). -/
inductive Cell : Type
  | null
  | num (q : ℚ)
  | text (s : String)
deriving DecidableEq

/-- `pd.to_numeric(errors='coerce')` on one cell. -/
def toNumericCell : Cell → Option ℚ
  | .null => none
  | .num q => some q
  | .text _ => none

/-- A row of the renamed dataframe, restricted to the columns the cleaning
stage reads or writes. -/
structure RawRow : Type where
  f1 : Cell
  f2 : Cell
  vowel : Cell
  speaker : Cell
  native_language : Cell
deriving DecidableEq

/-- The renamed dataframe: whether a `vowel` column exists, and the rows. -/
structure TDF : Type where
  hasVowel : Bool
  rows : List RawRow
deriving DecidableEq

/-- A cleaned row: `F1`/`F2` coerced to numbers; all other cells carried
through untouched by the cleaning stage. -/
structure CleanRow : Type where
  f1 : ℚ
  f2 : ℚ
  vowel : Cell
  speaker : Cell
  native_language : Cell
deriving DecidableEq

/-- The `to_numeric` coercion of one row (`none` when a value fails to
coerce, so the following `dropna` drops the row). -/
def coerceRow (r : RawRow) : Option CleanRow :=
  match toNumericCell r.f1, toNumericCell r.f2 with
  | some a, some b => some ⟨a, b, r.vowel, r.speaker, r.native_language⟩
  | _, _ => none

/-- Lines 124–132: `dropna(subset=['F1','F2'])`, `to_numeric` coercion,
second `dropna`, then the 100–4000 Hz range filters on F1 and on F2. -/
def cleanRows (rows : List RawRow) : List CleanRow :=
  let r1 := rows.filter (fun r => !(r.f1 == Cell.null) && !(r.f2 == Cell.null))
  let r2 := r1.filterMap coerceRow
  let r3 := r2.filter (fun r => decide (100 ≤ r.f1 ∧ r.f1 ≤ 4000))
  r3.filter (fun r => decide (100 ≤ r.f2 ∧ r.f2 ≤ 4000))

/-- Lines 135–136: synthesize a constant `"unknown"` vowel column when none
exists. -/
def ensureVowel (hasVowel : Bool) (rows : List CleanRow) : List CleanRow :=
  if hasVowel then rows
  else rows.map (fun r => { r with vowel := Cell.text "unknown" })

/-- The fixed message of the `ValueError` raised at line 139 when the cleaned
dataset is empty (it reports no per-field counts). -/
def noValidDataMsg : String :=
  "유효한 데이터가 없습니다. F1과 F2 값이 100-4000 Hz 범위에 있는지 확인하세요."

/-- The try-block of `process_csv_xlsx` in auto-detect mode, after the
dataframe has been read: detection/rename outcome, cleaning, vowel default,
empty check. -/
def ingestAutoBody (detOut : Except String TDF) : Except String (List CleanRow) :=
  match detOut with
  | .error e => .error e
  | .ok tdf =>
    let rows := ensureVowel tdf.hasVowel (cleanRows tdf.rows)
    if rows.isEmpty then .error noValidDataMsg else .ok rows

/-- `process_csv_xlsx` with `auto_detect=True`: any exception from the body is
caught and `(pd.DataFrame(), None)` — here `([], none)` — is returned
instead (lines 147–153). -/
def process_csv_xlsx_auto (detOut : Except String TDF) : List CleanRow × Option Unit :=
  match ingestAutoBody detOut with
  | .ok rows => (rows, some ())
  | .error _ => ([], none)

/-- The raw-mode input frame: presence of the (lower-cased) `f1`, `f2` and
`vowel` columns, plus the rows. -/
structure RawTDF : Type where
  hasF1 : Bool
  hasF2 : Bool
  hasVowel : Bool
  rows : List RawRow
deriving DecidableEq

/-- The try-block of `process_csv_xlsx` with `auto_detect=False`
(lines 107–139): required-column check, vowel default, cleaning, empty
check. -/
def rawBody (df : RawTDF) : Except String (List CleanRow) :=
  if !df.hasF1 || !df.hasF2 then
    .error "필수 열이 누락되었습니다. F1과 F2 열이 필요합니다."
  else
    let rows0 := if df.hasVowel then df.rows
                 else df.rows.map (fun r => { r with vowel := Cell.text "unknown" })
    let rows := cleanRows rows0
    if rows.isEmpty then .error noValidDataMsg else .ok rows

/-- `process_csv_xlsx` with `auto_detect=False`: exceptions are caught and an
empty dataframe is returned (line 153). -/
def process_csv_xlsx_raw (df : RawTDF) : List CleanRow :=
  match rawBody df with
  | .ok rows => rows
  | .error _ => []

/-! ### Per-vowel outlier removal (`remove_outliers_by_vowel`, `src/app.py`
lines 51–94) -/

/-- Mean of a list of rationals (`series.mean()`). -/
def meanQ (l : List ℚ) : ℚ := sumQ l / l.length

/-- Sample variance (`series.std() ** 2`, pandas default `ddof=1`). -/
def sampleVar (l : List ℚ) : ℚ :=
  sumQ (l.map (fun x => (x - meanQ l) ^ 2)) / ((l.length : ℚ) - 1)

/-- A row of the dataframe handed to the outlier filter. -/
structure VRow : Type where
  vowel : String
  f1 : ℚ
  f2 : ℚ
deriving DecidableEq

/-- The outlier filter's input frame: whether a `vowel` column exists
(`'vowel' in df.columns`), and the rows. -/
structure ODF : Type where
  hasVowelCol : Bool
  rows : List VRow
deriving DecidableEq

/-- The sub-frame `df[df['vowel'] == vowel]` of one vowel group. -/
def groupRows (rows : List VRow) (v : String) : List VRow :=
  rows.filter (fun r => r.vowel == v)

/-- The keep-mask of `remove_outliers_by_vowel`:
`|F1 - mean| ≤ t·std and |F2 - mean| ≤ t·std` with the group's own mean and
sample standard deviation.  Since both sides are non-negative for the
non-negative thresholds the program uses, the comparison is encoded
square-free of radicals as `(x - mean)² ≤ t² · var`. -/
def keepRow (g : List VRow) (t : ℚ) (r : VRow) : Bool :=
  let f1s := g.map (fun x => x.f1)
  let f2s := g.map (fun x => x.f2)
  let d1 : ℚ := r.f1 - meanQ f1s
  let d2 : ℚ := r.f2 - meanQ f2s
  decide (d1 * d1 ≤ t * t * sampleVar f1s ∧ d2 * d2 ≤ t * t * sampleVar f2s)

/-- `remove_outliers_by_vowel` (default threshold 3): empty frames and frames
without a `vowel` column are returned unchanged; otherwise each vowel group
(in order of first appearance, as `Series.unique`) is passed through
unchanged when it has fewer than 3 rows and filtered by `keepRow` otherwise,
and the surviving groups are concatenated. -/
def remove_outliers_by_vowel (df : ODF) (t : ℚ) : ODF :=
  if df.rows.isEmpty || !df.hasVowelCol then df
  else
    { df with
      rows := (dedupFirst (df.rows.map (fun r => r.vowel))).flatMap (fun v =>
        let g := groupRows df.rows v
        if g.length < 3 then g else g.filter (keepRow g t)) }

/-! ### Audio extraction (`process_wav_textgrid` and
`extract_formants_from_textgrid`, lines 156–422)

The parselmouth collaborator is external: a formant track is modelled as a
function from a time point to the pair of (possibly NaN) F1/F2 readings, and
the per-file external work (loading, resampling, TextGrid lookup, formant
tracking) is modelled by the outcome values a `FileJob` carries. -/

/-- A data point appended by the extraction loops (`data_point` dicts):
`speaker`/`native_language` are present only when the filename metadata
provided them (a falsy value is skipped by `if file_metadata.get(...)`). -/
structure ARow : Type where
  vowel : String
  f1 : ℚ
  f2 : ℚ
  time : ℚ
  durationMs : Option ℚ
  file : String
  speaker : Option String
  native_language : Option String
deriving DecidableEq

/-- A row of the final extracted dataframe, after the speaker/language
normalisation: both metadata fields are definite strings. -/
structure NRow : Type where
  vowel : String
  f1 : ℚ
  f2 : ℚ
  time : ℚ
  durationMs : Option ℚ
  file : String
  speaker : String
  native_language : String
deriving DecidableEq

/-- `fillna('unknown').replace('', 'unknown').astype(str)` on one cell. -/
def normMetaCell (v : Option String) : String :=
  match v with
  | none => "unknown"
  | some s => if s == "" then "unknown" else s

/-- Lines 267–289: keep only vowel-labelled rows, then normalise `speaker`
and `native_language` so they are never null or empty. -/
def finalizeAudio (rows : List ARow) : List NRow :=
  (rows.filter (fun r => is_vowel_label r.vowel)).map (fun r =>
    ⟨r.vowel, r.f1, r.f2, r.time, r.durationMs, r.file,
     normMetaCell r.speaker, normMetaCell r.native_language⟩)

/-- A labelled interval of the selected TextGrid tier. -/
structure Interval : Type where
  label : String
  start : ℚ
  stop : ℚ

/-- The external formant track: `t ↦ (F1(t), F2(t))`, `none` for a NaN
reading of `call(formant, "Get value at time", k, t, "hertz", "linear")`. -/
abbrev Track := ℚ → Option ℚ × Option ℚ

/-- The filename-derived metadata handed to the interval extractor. -/
structure FileMeta : Type where
  speaker : Option String
  native_language : Option String

/-- `if file_metadata.get(key):` — a missing or falsy (empty) value is not
copied into the data point. -/
def metaField (v : Option String) : Option String :=
  match v with
  | none => none
  | some s => if s == "" then none else some s

/-- One sample's validity test: `if f1 and f2 and not (isnan f1 or isnan f2)`
(a reading of exactly 0.0 is falsy in Python and hence rejected) followed by
the `100 ≤ · ≤ 4000` range test on both formants. -/
def validSample (p : Option ℚ × Option ℚ) : Option (ℚ × ℚ) :=
  match p with
  | (some x, some y) =>
    if ¬x = 0 ∧ ¬y = 0 ∧ 100 ≤ x ∧ x ≤ 4000 ∧ 100 ≤ y ∧ y ≤ 4000 then some (x, y)
    else none
  | _ => none

/-- Python `round` to an integer: round half to even. -/
def roundHalfEven (q : ℚ) : ℤ :=
  let f := ⌊q⌋
  let r := q - f
  if r < 1/2 then f
  else if 1/2 < r then f + 1
  else if f % 2 = 0 then f else f + 1

/-- `round(x, 1)`. -/
def round1 (q : ℚ) : ℚ := (roundHalfEven (q * 10) : ℚ) / 10

/-- `np.linspace(a, b, 5)`. -/
def linspace5 (a b : ℚ) : List ℚ :=
  (List.range 5).map (fun i => a + (b - a) * i / 4)

/-- The per-interval body of `extract_formants_from_textgrid`
(lines 346–417): skip unlabelled intervals; sample 5 points across the
middle 25% when the duration exceeds 20 ms, averaging the valid samples;
otherwise sample once at the midpoint; emit a row only when valid samples
exist and the label passes the vowel filter. -/
def processInterval (track : Track) (iv : Interval) (md : FileMeta)
    (basename : String) : Option ARow :=
  if iv.label.data.isEmpty ∨ (trimStr iv.label).data.isEmpty then none
  else
    let duration := iv.stop - iv.start
    if duration > 1/50 then
      let midStart := iv.start + duration * (3/8)
      let midEnd := iv.start + duration * (5/8)
      let samples := (linspace5 midStart midEnd).filterMap (fun t => validSample (track t))
      let f1s := samples.map (fun p => p.1)
      let f2s := samples.map (fun p => p.2)
      if (!f1s.isEmpty) && (!f2s.isEmpty) && is_vowel_label iv.label then
        some ⟨trimStr iv.label, round1 (meanQ f1s), round1 (meanQ f2s),
              (midStart + midEnd) / 2, some (duration * 1000), basename,
              metaField md.speaker, metaField md.native_language⟩
      else none
    else
      let t := (iv.start + iv.stop) / 2
      match validSample (track t) with
      | some xy =>
        if is_vowel_label iv.label then
          some ⟨trimStr iv.label, round1 xy.1, round1 xy.2, t,
                some (duration * 1000), basename,
                metaField md.speaker, metaField md.native_language⟩
        else none
      | none => none

/-- The outcome of the external calls for one audio file once the sound has
loaded: its original sampling rate, and either the extracted rows or the
error of a later per-file failure. -/
structure SoundStage : Type where
  origRate : ℚ
  extract : Except String (List ARow)

/-- One audio file of a batch: the names used in log entries and the outcome
of `parselmouth.Sound` (an `Except` for a load failure). -/
structure FileJob : Type where
  wavName : String
  basename : String
  load : Except String SoundStage

/-- The per-file body of the `process_wav_textgrid` loop, with its
`try/except`: a load failure yields only a `✗` log entry; a loaded file adds
a resample note when its rate differs from 16000 Hz, then either a `✗` entry
(later failure) or its rows and a `✓` entry. -/
def processJob (j : FileJob) : List ARow × List String :=
  match j.load with
  | .error e => ([], ["✗ " ++ j.wavName ++ ": " ++ e])
  | .ok s =>
    let rlog := if ¬s.origRate = 16000 then
        ["  ↻ Resampled from " ++ toString s.origRate ++ " Hz to 16000 Hz"]
      else []
    match s.extract with
    | .error e => ([], rlog ++ ["✗ " ++ j.wavName ++ ": " ++ e])
    | .ok rows => (rows, rlog ++ ["✓ " ++ j.basename ++ ": " ++ toString rows.length ++ " vowels"])

/-- The batch loop of `process_wav_textgrid`: accumulate `all_data` and the
`processing_info` log over the files in input order. -/
def batchLoop (jobs : List FileJob) : List ARow × List String :=
  jobs.foldl (fun acc j =>
    let r := processJob j
    (acc.1 ++ r.1, acc.2 ++ r.2)) ([], [])

/-- The extraction metadata, restricted to what the claims inspect. -/
structure AudioMeta : Type where
  processing_info : List String
deriving DecidableEq

/-- `process_wav_textgrid` (lines 156–291): run the batch loop; with no data
at all return an empty frame with the metadata; otherwise the vowel filter
and metadata normalisation are applied to the combined rows. -/
def process_wav_textgrid_model (jobs : List FileJob) : List NRow × AudioMeta :=
  let res := batchLoop jobs
  if res.1.isEmpty then ([], ⟨res.2⟩)
  else (finalizeAudio res.1, ⟨res.2⟩)

/-- A log entry is a per-file status entry when it is a success (`✓`) or
failure (`✗`) marker; resample notes start with spaces. -/
def isStatusEntry (e : String) : Bool := strPre "✓" e || strPre "✗" e

/-- The status entry the loop emits for a given file. -/
def statusLine (j : FileJob) : String :=
  match j.load with
  | .error e => "✗ " ++ j.wavName ++ ": " ++ e
  | .ok s =>
    match s.extract with
    | .error e => "✗ " ++ j.wavName ++ ": " ++ e
    | .ok rows => "✓ " ++ j.basename ++ ": " ++ toString rows.length ++ " vowels"

/-- The rows a file contributes (none when it fails). -/
def jobRows (j : FileJob) : List ARow :=
  match j.load with
  | .error _ => []
  | .ok s =>
    match s.extract with
    | .error _ => []
    | .ok rows => rows

/-- Whether the per-file processing of a job fails (at load or later). -/
def jobFailed (j : FileJob) : Bool :=
  match j.load with
  | .error _ => true
  | .ok s =>
    match s.extract with
    | .error _ => true
    | .ok _ => false

/-! ### Concrete inputs used by the witnesses and counterexamples below -/

/-- A tabular row that survives cleaning (speaker and language cells null). -/
def exRowOK : RawRow := ⟨.num 500, .num 1500, .text "a", .null, .null⟩

/-- A tabular row whose F1 is below the 100 Hz validity range. -/
def exRowLow : RawRow := ⟨.num 50, .num 1500, .text "b", .text "s", .null⟩

/-- A one-row frame that ingests successfully. -/
def exTDF : TDF := ⟨true, [exRowOK]⟩

/-- The same frame for raw (non-auto-detect) mode. -/
def exRawTDF : RawTDF := ⟨true, true, true, [exRowOK]⟩

/-- A frame whose cleaned dataset is empty (its only row is out of range). -/
def exTDFLow : TDF := ⟨true, [exRowLow]⟩

/-- A dataframe with a `first_formant` column ahead of a column literally
named `F1`. -/
def c3df : DF := [("first_formant", .nums [some 500]), ("F1", .strs [some "x"])]

/-- A dataframe with only columns `x`, `y`, `z` and no formant-range
values. -/
def c7df : DF := [("x", .strs [some "p"]), ("y", .strs [some "q"]), ("z", .strs [some "r"])]

/-- A dataframe whose columns already carry canonical names. -/
def c8df : DF := [("F1", .nums [some 500]), ("F2", .nums [some 1500])]

/-- The outlier-filter group of the spec scenario: F1 values
`[100, 102, 101, 5000]`, F2 held constant. -/
def c4rows : List VRow := [⟨"a", 100, 1500⟩, ⟨"a", 102, 1500⟩, ⟨"a", 101, 1500⟩, ⟨"a", 5000, 1500⟩]

/-- The outlier-filter frame of the spec scenario. -/
def c4df : ODF := ⟨true, c4rows⟩

/-- A frame without a `vowel` column. -/
def c10df : ODF := ⟨false, [⟨"a", 500, 1500⟩]⟩

/-- A formant track reading a constant (500.01 Hz, 1500 Hz). -/
def c2track : Track := fun _ => (some (50001/100), some 1500)

/-- A 100 ms labelled interval. -/
def c2ivLong : Interval := ⟨"a", 0, 1/10⟩

/-- A 15 ms labelled interval. -/
def c2ivShort : Interval := ⟨"a", 0, 3/200⟩

/-- Empty filename metadata. -/
def c2md : FileMeta := ⟨none, none⟩

/-- The row the 15 ms interval of `c2ivShort` emits under `c2track`. -/
def c2shortRow : ARow := ⟨"a", 500, 1500, 3/400, some 15, "f", none, none⟩

/-- Audio rows with a missing speaker and an empty-string language. -/
def c6rows : List ARow := [⟨"a", 500, 1500, 1, none, "f", none, some ""⟩]

/-- First file of the batch scenario: loads and extracts one vowel. -/
def c9job1 : FileJob := ⟨"a.wav", "a", .ok ⟨16000, .ok [⟨"a", 500, 1500, 1, none, "a", none, none⟩]⟩⟩

/-- Second file of the batch scenario: fails to load. -/
def c9job2 : FileJob := ⟨"b.wav", "b", .error "load failed"⟩

/-- Third file of the batch scenario: loads and extracts one vowel. -/
def c9job3 : FileJob := ⟨"c.wav", "c", .ok ⟨16000, .ok [⟨"i", 300, 2500, 1, none, "c", some "s1", none⟩]⟩⟩

/-- A file whose original rate (44100 Hz) forces resampling. -/
def c9jobR : FileJob := ⟨"d.wav", "d", .ok ⟨44100, .ok [⟨"a", 500, 1500, 1, none, "d", none, none⟩]⟩⟩

/-! ## Helper lemmas -/

/-- Every row surviving `cleanRows` has both formants in the 100–4000 Hz
range. -/
theorem mem_cleanRows_range {rows : List RawRow} {r : CleanRow} (h : r ∈ cleanRows rows) :
    100 ≤ r.f1 ∧ r.f1 ≤ 4000 ∧ 100 ≤ r.f2 ∧ r.f2 ≤ 4000 := by
  unfold cleanRows at h
  simp only [List.mem_filter, decide_eq_true_eq] at h
  exact ⟨h.1.2.1, h.1.2.2, h.2.1, h.2.2⟩

/-- `ensureVowel` only rewrites the vowel cell: every output row agrees with
some input row on all other fields. -/
theorem mem_ensureVowel {b : Bool} {rows : List CleanRow} {r : CleanRow}
    (h : r ∈ ensureVowel b rows) :
    ∃ r0 ∈ rows, r.f1 = r0.f1 ∧ r.f2 = r0.f2 ∧
      r.speaker = r0.speaker ∧ r.native_language = r0.native_language := by
  unfold ensureVowel at h
  cases b with
  | true => exact ⟨r, by simpa using h, rfl, rfl, rfl, rfl⟩
  | false =>
    simp only [Bool.false_eq_true, if_false, List.mem_map] at h
    obtain ⟨r0, hr0, hmap⟩ := h
    exact ⟨r0, hr0, by rw [← hmap], by rw [← hmap], by rw [← hmap], by rw [← hmap]⟩

/-- Rows returned by a successful auto-mode ingestion body come from
`ensureVowel ∘ cleanRows`. -/
theorem ingestAutoBody_ok {detOut : Except String TDF} {rows : List CleanRow}
    (hb : ingestAutoBody detOut = .ok rows) :
    ∃ tdf, detOut = .ok tdf ∧ rows = ensureVowel tdf.hasVowel (cleanRows tdf.rows) := by
  cases detOut with
  | error e => simp [ingestAutoBody] at hb
  | ok tdf =>
    refine ⟨tdf, rfl, ?_⟩
    unfold ingestAutoBody at hb
    by_cases he : (ensureVowel tdf.hasVowel (cleanRows tdf.rows)).isEmpty
    · simp [he] at hb
    · simp [he] at hb; exact hb.symm

/-- Rows returned by a successful raw-mode ingestion body come from
`cleanRows` of the vowel-defaulted rows. -/
theorem rawBody_ok {df : RawTDF} {rows : List CleanRow} (hb : rawBody df = .ok rows) :
    rows = cleanRows (if df.hasVowel then df.rows
      else df.rows.map (fun r => { r with vowel := Cell.text "unknown" })) := by
  unfold rawBody at hb
  by_cases hc : (!df.hasF1 || !df.hasF2) = true
  · simp [hc] at hb
  · simp only [hc, Bool.false_eq_true, if_false] at hb
    by_cases he : (cleanRows (if df.hasVowel then df.rows
        else df.rows.map (fun r => { r with vowel := Cell.text "unknown" }))).isEmpty
    · simp [he] at hb
    · simp [he] at hb; exact hb.symm

/-! ## C1 — range-filter soundness of tabular ingestion -/

/-- C1: every row of any dataset returned by `process_csv_xlsx` — in
auto-detect mode or raw mode — has numeric F1 and F2 with
`100 ≤ F1 ≤ 4000` and `100 ≤ F2 ≤ 4000`; rows with null or non-coercible
formants were dropped by `cleanRows` before the range filter. -/
theorem c1_range_filter_sound (detOut : Except String TDF) (rdf : RawTDF)
    (r s : CleanRow)
    (hr : r ∈ (process_csv_xlsx_auto detOut).1)
    (hs : s ∈ process_csv_xlsx_raw rdf) :
    (100 ≤ r.f1 ∧ r.f1 ≤ 4000 ∧ 100 ≤ r.f2 ∧ r.f2 ≤ 4000) ∧
    (100 ≤ s.f1 ∧ s.f1 ≤ 4000 ∧ 100 ≤ s.f2 ∧ s.f2 ≤ 4000) := by
  constructor
  · unfold process_csv_xlsx_auto at hr
    cases hb : ingestAutoBody detOut with
    | error e => rw [hb] at hr; simp at hr
    | ok rows =>
      rw [hb] at hr; simp only at hr
      obtain ⟨tdf, -, hrows⟩ := ingestAutoBody_ok hb
      subst hrows
      obtain ⟨r0, hr0, e1, e2, -, -⟩ := mem_ensureVowel hr
      have := mem_cleanRows_range hr0
      rw [e1, e2]
      exact this
  · unfold process_csv_xlsx_raw at hs
    cases hb : rawBody rdf with
    | error e => rw [hb] at hs; simp at hs
    | ok rows =>
      rw [hb] at hs; simp only at hs
      have hrows := rawBody_ok hb
      subst hrows
      exact mem_cleanRows_range hs

/-- Witness for C1 at a concrete one-row CSV frame. -/
theorem c1_witness :
    (⟨500, 1500, Cell.text "a", Cell.null, Cell.null⟩ : CleanRow) ∈
      (process_csv_xlsx_auto (.ok exTDF)).1 ∧
    (⟨500, 1500, Cell.text "a", Cell.null, Cell.null⟩ : CleanRow) ∈
      process_csv_xlsx_raw exRawTDF ∧
    ((100 ≤ (500:ℚ) ∧ (500:ℚ) ≤ 4000 ∧ 100 ≤ (1500:ℚ) ∧ (1500:ℚ) ≤ 4000) ∧
     (100 ≤ (500:ℚ) ∧ (500:ℚ) ≤ 4000 ∧ 100 ≤ (1500:ℚ) ∧ (1500:ℚ) ≤ 4000)) := by
  refine ⟨by decide, by decide, ?_⟩
  exact c1_range_filter_sound (.ok exTDF) exRawTDF
    ⟨500, 1500, Cell.text "a", Cell.null, Cell.null⟩
    ⟨500, 1500, Cell.text "a", Cell.null, Cell.null⟩ (by decide) (by decide)

/-! ## C5 — behaviour on an empty cleaned dataset -/

/-- C5 (counterexample to the claim as stated): on a frame whose only row is
out of range, the auto-mode ingestion does not propagate an error to the
caller — it returns an empty dataset (and no detection info) in its place. -/
theorem c5_counterexample :
    process_csv_xlsx_auto (.ok exTDFLow) = ([], none) ∧
    ¬ (process_csv_xlsx_auto (.ok exTDFLow)).1.length > 0 := by
  constructor
  · rfl
  · decide

/-- C5 (amended): when the cleaned dataset is empty the body raises a
`ValueError` carrying the fixed no-valid-data message (which reports no
per-field counts), and `process_csv_xlsx` catches it itself and returns an
empty dataset with detection info `None`. -/
theorem c5_empty_swallowed (tdf : TDF)
    (h : ensureVowel tdf.hasVowel (cleanRows tdf.rows) = []) :
    ingestAutoBody (.ok tdf) = .error noValidDataMsg ∧
    process_csv_xlsx_auto (.ok tdf) = ([], none) := by
  have hb : ingestAutoBody (.ok tdf) = .error noValidDataMsg := by
    unfold ingestAutoBody
    simp [h]
  exact ⟨hb, by unfold process_csv_xlsx_auto; rw [hb]⟩

/-- Witness for the amended C5 at the concrete out-of-range frame. -/
theorem c5_witness :
    ensureVowel exTDFLow.hasVowel (cleanRows exTDFLow.rows) = [] ∧
    process_csv_xlsx_auto (.ok exTDFLow) = ([], none) := by
  refine ⟨by decide, ?_⟩
  exact (c5_empty_swallowed exTDFLow (by decide)).2

/-! ## C6 — speaker / native-language non-null guarantee -/

/-- C6 (counterexample to the claim as stated): the tabular path performs no
speaker/language normalisation — a surviving row with a null speaker cell is
returned with its speaker still null, and its language still null. -/
theorem c6_counterexample :
    (process_csv_xlsx_auto (.ok exTDF)).1 =
      [⟨500, 1500, Cell.text "a", Cell.null, Cell.null⟩] ∧
    (⟨500, 1500, Cell.text "a", Cell.null, Cell.null⟩ : CleanRow).speaker = Cell.null := by
  exact ⟨rfl, rfl⟩

/-- C6 (amended): on the audio-extraction path, every row of the finalised
dataset has non-empty string `speaker` and `native_language`, with
`"unknown"` substituted for a missing or empty source value. -/
theorem c6_audio_nonnull (rows : List ARow) (r : NRow) (h : r ∈ finalizeAudio rows) :
    ¬ r.speaker = "" ∧ ¬ r.native_language = "" ∧
    ∃ r0 ∈ rows, r.speaker = normMetaCell r0.speaker ∧
      r.native_language = normMetaCell r0.native_language := by
  unfold finalizeAudio at h
  simp only [List.mem_map, List.mem_filter] at h
  obtain ⟨r0, ⟨hr0, -⟩, hmap⟩ := h
  have hs : r.speaker = normMetaCell r0.speaker := by rw [← hmap]
  have hn : r.native_language = normMetaCell r0.native_language := by rw [← hmap]
  refine ⟨?_, ?_, r0, hr0, hs, hn⟩
  · rw [hs]; unfold normMetaCell
    cases hv : r0.speaker with
    | none => simp
    | some s =>
      by_cases he : s == ""
      · simp [he]
      · simpa [he] using by simpa using he
  · rw [hn]; unfold normMetaCell
    cases hv : r0.native_language with
    | none => simp
    | some s =>
      by_cases he : s == ""
      · simp [he]
      · simpa [he] using by simpa using he

/-- Witness for the amended C6: a row with missing speaker and empty-string
language is finalised to `"unknown"` in both fields. -/
theorem c6_witness :
    (⟨"a", 500, 1500, 1, none, "f", "unknown", "unknown"⟩ : NRow) ∈ finalizeAudio c6rows ∧
    ¬ (⟨"a", 500, 1500, 1, none, "f", "unknown", "unknown"⟩ : NRow).speaker = "" := by
  refine ⟨by decide, ?_⟩
  exact (c6_audio_nonnull c6rows _ (by decide)).1

/-! ## C7 — missing-required-fields error -/

/-- C7: when neither F1 nor F2 is detected after both phases, validation
fails with an error that names both missing fields and restates the
acceptable Hz ranges. -/
theorem c7_missing_fields_error (df : DF)
    (h1 : lookupF .F1 (detect_columns df) = none)
    (h2 : lookupF .F2 (detect_columns df) = none) :
    validate_required_columns (detect_columns df) =
      .error (missingColsMsg [Field.F1, Field.F2]) ∧
    containsStr (missingColsMsg [Field.F1, Field.F2]) "F1" = true ∧
    containsStr (missingColsMsg [Field.F1, Field.F2]) "F2" = true ∧
    containsStr (missingColsMsg [Field.F1, Field.F2]) "200-1000 Hz" = true ∧
    containsStr (missingColsMsg [Field.F1, Field.F2]) "800-3000 Hz" = true := by
  refine ⟨?_, by decide, by decide, by decide, by decide⟩
  unfold validate_required_columns
  simp [h1, h2]

/-- Witness for C7: a dataframe with only columns `x`, `y`, `z` leaves both
F1 and F2 undetected and hence fails validation naming both. -/
theorem c7_witness :
    lookupF .F1 (detect_columns c7df) = none ∧
    validate_required_columns (detect_columns c7df) =
      .error (missingColsMsg [Field.F1, Field.F2]) := by
  refine ⟨by decide, ?_⟩
  exact (c7_missing_fields_error c7df (by decide) (by decide)).1

/-! ## C10 — outlier filter on empty or vowel-less frames -/

/-- C10: an empty frame, or a frame without a `vowel` column, passes through
`remove_outliers_by_vowel` unchanged, for any threshold. -/
theorem c10_identity (df : ODF) (t : ℚ) (h : df.rows = [] ∨ df.hasVowelCol = false) :
    remove_outliers_by_vowel df t = df := by
  unfold remove_outliers_by_vowel
  rcases h with h | h <;> simp [h]

/-- Witness for C10 on a frame without a `vowel` column. -/
theorem c10_witness :
    (c10df.rows = [] ∨ c10df.hasVowelCol = false) ∧
    remove_outliers_by_vowel c10df 7 = c10df := by
  exact ⟨Or.inr rfl, c10_identity c10df 7 (Or.inr rfl)⟩

/-! ## C4 — per-vowel outlier removal -/

/-- Membership in `dedupAux`: an element survives iff it occurs in the list
and was not already seen. -/
theorem mem_dedupAux {α : Type} [DecidableEq α] {l : List α} :
    ∀ {seen : List α} {x : α}, x ∈ dedupAux seen l ↔ x ∈ l ∧ x ∉ seen := by
  induction l with
  | nil => intro seen x; simp [dedupAux]
  | cons a as ih =>
    intro seen x
    by_cases ha : a ∈ seen
    · rw [dedupAux, if_pos ha, ih]
      constructor
      · rintro ⟨h1, h2⟩; exact ⟨List.mem_cons_of_mem a h1, h2⟩
      · rintro ⟨h1, h2⟩
        rcases List.mem_cons.mp h1 with rfl | h1
        · exact absurd ha h2
        · exact ⟨h1, h2⟩
    · rw [dedupAux, if_neg ha]
      constructor
      · intro hm
        rcases List.mem_cons.mp hm with rfl | hm
        · exact ⟨List.mem_cons_self x as, ha⟩
        · have := ih.mp hm
          exact ⟨List.mem_cons_of_mem a this.1,
            fun hs => this.2 (List.mem_cons_of_mem a hs)⟩
      · rintro ⟨h1, h2⟩
        rcases List.mem_cons.mp h1 with rfl | h1
        · exact List.mem_cons_self x _
        · by_cases hxa : x = a
          · subst hxa; exact List.mem_cons_self x _
          · exact List.mem_cons_of_mem a
              (ih.mpr ⟨h1, fun hs => (List.mem_cons.mp hs).elim hxa h2⟩)

/-- `dedupFirst` preserves membership. -/
theorem mem_dedupFirst {α : Type} [DecidableEq α] {l : List α} {x : α} :
    x ∈ dedupFirst l ↔ x ∈ l := by
  rw [dedupFirst, mem_dedupAux]; simp

/-- `dedupAux` produces no duplicates. -/
theorem nodup_dedupAux {α : Type} [DecidableEq α] (l : List α) :
    ∀ seen : List α, (dedupAux seen l).Nodup := by
  induction l with
  | nil => intro seen; simp [dedupAux]
  | cons a as ih =>
    intro seen
    by_cases ha : a ∈ seen
    · rw [dedupAux, if_pos ha]; exact ih seen
    · rw [dedupAux, if_neg ha]
      refine List.nodup_cons.mpr ⟨?_, ih (a :: seen)⟩
      intro hmem
      exact (mem_dedupAux.mp hmem).2 (List.mem_cons_self a seen)

/-- `dedupFirst` produces no duplicates. -/
theorem nodup_dedupFirst {α : Type} [DecidableEq α] (l : List α) :
    (dedupFirst l).Nodup := nodup_dedupAux l []

/-- A row of a vowel group belongs to the frame and carries that vowel. -/
theorem mem_groupRows {rows : List VRow} {v : String} {r : VRow}
    (h : r ∈ groupRows rows v) : r ∈ rows ∧ r.vowel = v := by
  unfold groupRows at h
  simp only [List.mem_filter, beq_iff_eq] at h
  exact h

/-- A `flatMap` whose terms are empty away from `v` collapses to the term at
`v` (when the index list has no duplicates). -/
theorem flatMap_offdiag_empty {l : List String} (hnd : l.Nodup) (v : String)
    (G : String → List VRow)
    (hne : ∀ u ∈ l, ¬ u = v → G u = []) :
    l.flatMap G = if v ∈ l then G v else [] := by
  induction l with
  | nil => simp
  | cons a as ih =>
    rcases List.nodup_cons.mp hnd with ⟨hna, hnd2⟩
    rw [List.flatMap_cons]
    by_cases hav : a = v
    · subst hav
      have hall : ∀ u ∈ as, G u = [] := by
        intro u hu
        exact hne u (List.mem_cons_of_mem a hu) (fun he => hna (he ▸ hu))
      have h2 : as.flatMap G = [] := by
        rw [ih hnd2 (fun u hu _ => hall u hu), if_neg hna]
      rw [h2]
      simp
    · rw [hne a (List.mem_cons_self a as) hav, List.nil_append,
        ih hnd2 (fun u hu hv => hne u (List.mem_cons_of_mem a hu) hv)]
      by_cases hv : v ∈ as
      · rw [if_pos hv, if_pos (List.mem_cons_of_mem a hv)]
      · rw [if_neg hv,
          if_neg (fun hm => (List.mem_cons.mp hm).elim (fun he => hav he.symm) hv)]

/-- C4 (amended): groups with fewer than 3 rows pass through
`remove_outliers_by_vowel` unchanged and larger groups are filtered by the
group's own mean/standard-deviation mask, computed once over the full group —
and on the spec's concrete group (F1 values 100, 102, 101, 5000; F2 constant)
the 5000 row is kept at threshold 3 (a 4-point group's largest sample-standard
deviation is 1.5σ) and removed at threshold 1. -/
theorem c4_amended (df : ODF) (t : ℚ) (v : String) (h : df.hasVowelCol = true) :
    ((remove_outliers_by_vowel df t).rows.filter (fun r => r.vowel == v) =
      (if (groupRows df.rows v).length < 3 then groupRows df.rows v
       else (groupRows df.rows v).filter (keepRow (groupRows df.rows v) t))) ∧
    (remove_outliers_by_vowel c4df 3).rows = c4rows ∧
    (remove_outliers_by_vowel c4df 1).rows =
      [⟨"a", 100, 1500⟩, ⟨"a", 102, 1500⟩, ⟨"a", 101, 1500⟩] := by
  refine ⟨?_, ?_, ?_⟩
  · by_cases hre : df.rows.isEmpty
    · have hnil : df.rows = [] := by simpa using hre
      rw [remove_outliers_by_vowel, if_pos (by simp [hre])]
      simp [hnil, groupRows]
    · rw [remove_outliers_by_vowel, if_neg (by simp [hre, h])]
      simp only
      rw [List.filter_flatMap]
      set G : String → List VRow := fun u =>
        ((if (groupRows df.rows u).length < 3 then groupRows df.rows u
          else (groupRows df.rows u).filter (keepRow (groupRows df.rows u) t)).filter
          (fun r => r.vowel == v)) with hG
      have hsub : ∀ u r, r ∈ (if (groupRows df.rows u).length < 3 then groupRows df.rows u
          else (groupRows df.rows u).filter (keepRow (groupRows df.rows u) t)) →
          r.vowel = u := by
        intro u r hr
        by_cases hl : (groupRows df.rows u).length < 3
        · rw [if_pos hl] at hr; exact (mem_groupRows hr).2
        · rw [if_neg hl] at hr
          exact (mem_groupRows (List.mem_of_mem_filter hr)).2
      have hne : ∀ u ∈ dedupFirst (df.rows.map (fun r => r.vowel)), ¬ u = v → G u = [] := by
        intro u _ huv
        rw [hG]
        refine List.filter_eq_nil_iff.mpr ?_
        intro r hr
        simp only [beq_iff_eq]
        rw [hsub u r hr]
        exact huv
      rw [flatMap_offdiag_empty (nodup_dedupFirst _) v G hne]
      have hGv : G v = (if (groupRows df.rows v).length < 3 then groupRows df.rows v
          else (groupRows df.rows v).filter (keepRow (groupRows df.rows v) t)) := by
        rw [hG]
        exact List.filter_eq_self.mpr (fun r hr => by
          simp only [beq_iff_eq]; exact hsub v r hr)
      by_cases hv : v ∈ dedupFirst (df.rows.map (fun r => r.vowel))
      · rw [if_pos hv, hGv]
      · rw [if_neg hv]
        have hgnil : groupRows df.rows v = [] := by
          refine List.filter_eq_nil_iff.mpr ?_
          intro r hr
          simp only [beq_iff_eq]
          intro he
          exact hv (mem_dedupFirst.mpr (List.mem_map.mpr ⟨r, hr, he⟩))
        rw [hgnil]
        simp
  · norm_num [remove_outliers_by_vowel, c4df, c4rows, dedupFirst, dedupAux, groupRows,
      keepRow, meanQ, sampleVar, sumQ, List.flatMap, List.filter]
  · norm_num [remove_outliers_by_vowel, c4df, c4rows, dedupFirst, dedupAux, groupRows,
      keepRow, meanQ, sampleVar, sumQ, List.flatMap, List.filter]

/-- Witness for the amended C4, instantiated on the concrete scenario frame
with a group of fewer than 3 rows filtered out of `c10df`. -/
theorem c4_witness :
    c4df.hasVowelCol = true ∧
    (remove_outliers_by_vowel c4df 3).rows.filter (fun r => r.vowel == "a") =
      (if (groupRows c4df.rows "a").length < 3 then groupRows c4df.rows "a"
       else (groupRows c4df.rows "a").filter (keepRow (groupRows c4df.rows "a") 3)) := by
  exact ⟨rfl, (c4_amended c4df 3 "a" rfl).1⟩

/-- C4 (counterexample to the claim as stated): at the default threshold 3
the `5000` row of the spec's scenario group is not removed — the filter
returns the group unchanged, the 5000 row included. -/
theorem c4_counterexample :
    (remove_outliers_by_vowel c4df 3).rows = c4rows ∧
    (⟨"a", 5000, 1500⟩ : VRow) ∈ (remove_outliers_by_vowel c4df 3).rows := by
  have h : (remove_outliers_by_vowel c4df 3).rows = c4rows := by
    norm_num [remove_outliers_by_vowel, c4df, c4rows, dedupFirst, dedupAux, groupRows,
      keepRow, meanQ, sampleVar, sumQ, List.flatMap, List.filter]
  refine ⟨h, ?_⟩
  rw [h]
  decide

/-! ## C2 — TextGrid interval sampling -/

/-- C2 (amended): for an interval longer than 20 ms the extractor samples at
exactly the 5 equally spaced points spanning 37.5% to 62.5% of the duration,
and an emitted row carries the valid-sample averages rounded to 1 decimal
place; for an interval of at most 20 ms a single sample is taken at the
interval midpoint (also rounded to 1 decimal place). -/
theorem c2_amended (track : Track) (iv : Interval) (md : FileMeta) (b : String) (dp : ARow) :
    ((iv.stop - iv.start) > 1/50 →
      (linspace5 (iv.start + (iv.stop - iv.start) * (3/8))
          (iv.start + (iv.stop - iv.start) * (5/8)) =
        [iv.start + (iv.stop - iv.start) * (3/8),
         iv.start + (iv.stop - iv.start) * (7/16),
         iv.start + (iv.stop - iv.start) * (1/2),
         iv.start + (iv.stop - iv.start) * (9/16),
         iv.start + (iv.stop - iv.start) * (5/8)]) ∧
      (processInterval track iv md b = some dp →
        dp.f1 = round1 (meanQ (((linspace5 (iv.start + (iv.stop - iv.start) * (3/8))
            (iv.start + (iv.stop - iv.start) * (5/8))).filterMap
            (fun t => validSample (track t))).map Prod.fst)) ∧
        dp.f2 = round1 (meanQ (((linspace5 (iv.start + (iv.stop - iv.start) * (3/8))
            (iv.start + (iv.stop - iv.start) * (5/8))).filterMap
            (fun t => validSample (track t))).map Prod.snd)))) ∧
    ((iv.stop - iv.start) ≤ 1/50 →
      processInterval track iv md b = some dp →
        ∃ xy, validSample (track ((iv.start + iv.stop) / 2)) = some xy ∧
          dp.f1 = round1 xy.1 ∧ dp.f2 = round1 xy.2 ∧
          dp.time = (iv.start + iv.stop) / 2) := by
  constructor
  · intro hd
    constructor
    · unfold linspace5
      simp [List.range_succ]
      and_intros <;> ring
    · intro hp
      unfold processInterval at hp
      split at hp
      · exact absurd hp (by simp)
      · rw [if_pos hd] at hp
        dsimp only at hp
        split at hp
        · rw [Option.some.injEq] at hp
          subst hp
          exact ⟨rfl, rfl⟩
        · exact absurd hp (by simp)
  · intro hd hp
    unfold processInterval at hp
    split at hp
    · exact absurd hp (by simp)
    · rw [if_neg (by exact not_lt.mpr hd)] at hp
      dsimp only at hp
      cases hv : validSample (track ((iv.start + iv.stop) / 2)) with
      | none => rw [hv] at hp; exact absurd hp (by simp)
      | some xy =>
        rw [hv] at hp
        dsimp only at hp
        split at hp
        · rw [Option.some.injEq] at hp
          subst hp
          exact ⟨xy, rfl, rfl, rfl, rfl⟩
        · exact absurd hp (by simp)

/-- Witness for the amended C2: a 15 ms interval (duration ≤ 20 ms) emits a
single midpoint sample. -/
theorem c2_witness :
    (c2ivShort.stop - c2ivShort.start ≤ 1/50) ∧
    (∃ xy, validSample (c2track ((c2ivShort.start + c2ivShort.stop) / 2)) = some xy ∧
      c2shortRow.f1 = round1 xy.1 ∧ c2shortRow.f2 = round1 xy.2 ∧
      c2shortRow.time = (c2ivShort.start + c2ivShort.stop) / 2) := by
  have hle : c2ivShort.stop - c2ivShort.start ≤ 1/50 := by norm_num [c2ivShort]
  have hp : processInterval c2track c2ivShort c2md "f" = some c2shortRow := by
    have hv : is_vowel_label "a" = true := by decide
    have h1 : trimStr "a" = "a" := by decide
    have h2 : ¬((("a" : String).data.isEmpty = true) ∨ ((trimStr "a").data.isEmpty = true)) := by
      decide
    simp only [processInterval, c2track, c2ivShort, c2md]
    rw [if_neg h2]
    rw [if_neg (by norm_num)]
    rw [show validSample (some (50001 / 100), some 1500) = some (50001/100, 1500) by
      norm_num [validSample]]
    dsimp only
    rw [if_pos hv]
    simp only [c2shortRow, h1, metaField, Option.some.injEq, ARow.mk.injEq]
    norm_num [round1, roundHalfEven]
  exact ⟨hle, (c2_amended c2track c2ivShort c2md "f" c2shortRow).2 hle hp⟩

/-- C2 (counterexample to the claim as stated): on a 100 ms interval whose
track reads a constant 500.01 Hz, the emitted F1 is 500 — the rounded value —
while the average of the valid samples is 500.01, so the emitted formant is
not the average. -/
theorem c2_counterexample :
    (processInterval c2track c2ivLong c2md "f").map (fun r => r.f1) = some 500 ∧
    meanQ (((linspace5 (c2ivLong.start + (c2ivLong.stop - c2ivLong.start) * (3/8))
        (c2ivLong.start + (c2ivLong.stop - c2ivLong.start) * (5/8))).filterMap
        (fun t => validSample (c2track t))).map Prod.fst) = 50001/100 ∧
    ¬ (500 : ℚ) = 50001/100 := by
  have hv : is_vowel_label "a" = true := by decide
  have h2 : ¬((("a" : String).data.isEmpty = true) ∨ ((trimStr "a").data.isEmpty = true)) := by
    decide
  have hval : ∀ t : ℚ, validSample (c2track t) = some (50001/100, 1500) := by
    intro t; norm_num [c2track, validSample]
  have h3 : linspace5 ((0:ℚ) + (1/10 - 0) * (3/8)) ((0:ℚ) + (1/10 - 0) * (5/8)) =
      [3/80, 7/160, 1/20, 9/160, 1/16] := by
    norm_num [linspace5, List.range_succ]
  have h4 : List.filterMap (fun t => validSample (c2track t))
      ([3/80, 7/160, 1/20, 9/160, 1/16] : List ℚ) =
      [(50001/100, 1500), (50001/100, 1500), (50001/100, 1500),
       (50001/100, 1500), (50001/100, 1500)] := by
    simp [hval]
  refine ⟨?_, ?_, by norm_num⟩
  · simp only [processInterval, c2ivLong, c2md]
    rw [if_neg h2, if_pos (by norm_num)]
    rw [h3, h4]
    simp only [List.map_cons, List.map_nil, List.isEmpty_cons, hv]
    norm_num [meanQ, sumQ, round1, roundHalfEven, metaField]
  · simp only [c2ivLong]
    rw [h3, h4]
    norm_num [meanQ, sumQ]

/-! ## C9 — partial batch failure and the processing log -/

/-- Unfolding the batch fold one file at a time. -/
theorem batchLoop_cons (j : FileJob) (js : List FileJob) :
    batchLoop (j :: js) =
      ((processJob j).1 ++ (batchLoop js).1, (processJob j).2 ++ (batchLoop js).2) := by
  have hacc : ∀ (l : List FileJob) (acc : List ARow × List String),
      l.foldl (fun acc j =>
        let r := processJob j
        (acc.1 ++ r.1, acc.2 ++ r.2)) acc =
        (acc.1 ++ (batchLoop l).1, acc.2 ++ (batchLoop l).2) := by
    intro l
    induction l with
    | nil => intro acc; simp [batchLoop]
    | cons a as ih =>
      intro acc
      rw [List.foldl_cons]
      dsimp only
      rw [ih]
      conv_rhs => rw [batchLoop, List.foldl_cons]
      dsimp only
      rw [ih ((([] : List ARow) ++ (processJob a).1, ([] : List String) ++ (processJob a).2))]
      simp [List.append_assoc]
  rw [batchLoop, List.foldl_cons]
  dsimp only
  rw [hacc]
  simp

/-- A one-character prefix test succeeds on a string with that head. -/
theorem strPre_single (c : Char) (s : String) (rest : List Char) (h : s.data = c :: rest) :
    strPre ⟨[c]⟩ s = true := by
  unfold strPre
  rw [h]
  simp [listPre]

/-- A string headed by `✗` is a status entry. -/
theorem isStatus_of_fail_head (s : String) (rest : List Char) (h : s.data = '✗' :: rest) :
    isStatusEntry s = true := by
  have h1 := strPre_single '✗' s rest h
  unfold isStatusEntry
  rw [show strPre "✗" s = true from h1]
  simp

/-- A string headed by `✓` is a status entry. -/
theorem isStatus_of_ok_head (s : String) (rest : List Char) (h : s.data = '✓' :: rest) :
    isStatusEntry s = true := by
  have h1 := strPre_single '✓' s rest h
  unfold isStatusEntry
  rw [show strPre "✓" s = true from h1]
  simp

/-- A string headed by a space (such as a resample note) is not a status
entry. -/
theorem isStatus_of_space_head (s : String) (rest : List Char) (h : s.data = ' ' :: rest) :
    isStatusEntry s = false := by
  have e1 : ('✓' == ' ') = false := rfl
  have e2 : ('✗' == ' ') = false := rfl
  unfold isStatusEntry strPre
  rw [h]
  show (listPre ['✓'] (' ' :: rest) || listPre ['✗'] (' ' :: rest)) = false
  simp [listPre, e1, e2]

/-- Each file contributes exactly its rows and, among the status entries,
exactly its own status line. -/
theorem processJob_spec (j : FileJob) :
    (processJob j).1 = jobRows j ∧
    (processJob j).2.filter isStatusEntry = [statusLine j] := by
  cases hl : j.load with
  | error e =>
    refine ⟨by simp [processJob, jobRows, hl], ?_⟩
    have h1 : isStatusEntry ("✗ " ++ j.wavName ++ ": " ++ e) = true :=
      isStatus_of_fail_head _ _ rfl
    simp only [processJob, statusLine, hl, List.filter]
    rw [h1]
  | ok s =>
    cases he : s.extract with
    | error e =>
      refine ⟨by simp [processJob, jobRows, hl, he], ?_⟩
      have h1 : isStatusEntry ("✗ " ++ j.wavName ++ ": " ++ e) = true :=
        isStatus_of_fail_head _ _ rfl
      have h2 : isStatusEntry
          ("  ↻ Resampled from " ++ toString s.origRate ++ " Hz to 16000 Hz") = false :=
        isStatus_of_space_head _ _ rfl
      by_cases hr : ¬s.origRate = 16000
      · simp only [processJob, statusLine, hl, he, if_pos hr, List.filter_append,
          List.filter]
        rw [h1, h2]
        rfl
      · simp only [processJob, statusLine, hl, he, if_neg hr, List.filter_append,
          List.filter]
        rw [h1]
        rfl
    | ok rows =>
      refine ⟨by simp [processJob, jobRows, hl, he], ?_⟩
      have h1 : isStatusEntry
          ("✓ " ++ j.basename ++ ": " ++ toString rows.length ++ " vowels") = true :=
        isStatus_of_ok_head _ _ rfl
      have h2 : isStatusEntry
          ("  ↻ Resampled from " ++ toString s.origRate ++ " Hz to 16000 Hz") = false :=
        isStatus_of_space_head _ _ rfl
      by_cases hr : ¬s.origRate = 16000
      · simp only [processJob, statusLine, hl, he, if_pos hr, List.filter_append,
          List.filter]
        rw [h1, h2]
        rfl
      · simp only [processJob, statusLine, hl, he, if_neg hr, List.filter_append,
          List.filter]
        rw [h1]
        rfl

/-- C9 (amended): a failing file is absorbed — the batch data is the
concatenation of every file's own rows (empty for failing files), and the
log's status entries are exactly one per input file, in input order, `✗` for
a failing file and `✓` otherwise; resampled files additionally contribute a
non-status resample note. -/
theorem c9_amended (jobs : List FileJob) :
    (batchLoop jobs).1 = (jobs.map jobRows).flatten ∧
    (batchLoop jobs).2.filter isStatusEntry = jobs.map statusLine ∧
    (∀ j : FileJob, jobFailed j = true → strPre "✗" (statusLine j) = true) ∧
    (∀ j : FileJob, jobFailed j = false → strPre "✓" (statusLine j) = true) := by
  refine ⟨?_, ?_, ?_, ?_⟩
  · induction jobs with
    | nil => simp [batchLoop]
    | cons j js ih =>
      rw [batchLoop_cons]
      simp only [List.map_cons, List.flatten_cons]
      rw [(processJob_spec j).1, ih]
  · induction jobs with
    | nil => simp [batchLoop]
    | cons j js ih =>
      rw [batchLoop_cons]
      simp only [List.map_cons]
      rw [List.filter_append, (processJob_spec j).2, ih]
      rfl
  · intro j hj
    cases hl : j.load with
    | error e =>
      simp only [statusLine, hl]
      exact strPre_single '✗' _ _ rfl
    | ok s =>
      cases he : s.extract with
      | error e =>
        simp only [statusLine, hl, he]
        exact strPre_single '✗' _ _ rfl
      | ok rows =>
        simp [jobFailed, hl, he] at hj
  · intro j hj
    cases hl : j.load with
    | error e =>
      simp [jobFailed, hl] at hj
    | ok s =>
      cases he : s.extract with
      | error e =>
        simp [jobFailed, hl, he] at hj
      | ok rows =>
        simp only [statusLine, hl, he]
        exact strPre_single '✓' _ _ rfl

/-- Witness for the amended C9 on the spec's 3-file scenario (second file
fails to load): data from files 1 and 3, three status entries in order, the
second marked failed. -/
theorem c9_witness :
    jobFailed c9job2 = true ∧ strPre "✗" (statusLine c9job2) = true ∧
    (batchLoop [c9job1, c9job2, c9job3]).1 =
      jobRows c9job1 ++ jobRows c9job2 ++ jobRows c9job3 ∧
    (batchLoop [c9job1, c9job2, c9job3]).2.filter isStatusEntry =
      [statusLine c9job1, statusLine c9job2, statusLine c9job3] := by
  have h := c9_amended [c9job1, c9job2, c9job3]
  refine ⟨rfl, h.2.2.1 c9job2 rfl, ?_, ?_⟩
  · rw [h.1]; simp [List.append_assoc]
  · rw [h.2.1]; rfl

/-- C9 (counterexample to the claim as stated): one input file that needs
resampling produces two processing-log entries — the resample note plus the
status entry — so the log does not contain exactly one entry per input
file. -/
theorem c9_counterexample :
    ([c9jobR] : List FileJob).length = 1 ∧
    (process_wav_textgrid_model [c9jobR]).2.processing_info.length = 2 := by
  constructor
  · rfl
  · rfl

/-! ## C3 — detection precedence and injectivity -/

/-- `claimCol` claims the head of the column list past a prefix of used or
non-matching names. -/
theorem claimCol_of_decomp (f : Field) (used : List String) (pre : List String)
    (c : String) (post : List String)
    (hpre : ∀ x ∈ pre, x ∈ used ∨ fieldMatchesCol f x = false)
    (hc1 : c ∉ used) (hc2 : fieldMatchesCol f c = true) :
    claimCol f used (pre ++ c :: post) = some c := by
  induction pre with
  | nil =>
    rw [List.nil_append, claimCol, if_neg hc1, if_pos hc2]
  | cons a as ih =>
    rw [List.cons_append, claimCol]
    rcases hpre a (List.mem_cons_self a as) with h | h
    · rw [if_pos h]
      exact ih (fun x hx => hpre x (List.mem_cons_of_mem a hx))
    · by_cases ha : a ∈ used
      · rw [if_pos ha]
        exact ih (fun x hx => hpre x (List.mem_cons_of_mem a hx))
      · rw [if_neg ha, h]
        simp only [Bool.false_eq_true, if_false]
        exact ih (fun x hx => hpre x (List.mem_cons_of_mem a hx))

/-- A claimed column is in the scanned list and was not already used. -/
theorem claimCol_mem {f : Field} {used l : List String} {c : String}
    (h : claimCol f used l = some c) :
    c ∈ l ∧ c ∉ used ∧ fieldMatchesCol f c = true := by
  induction l with
  | nil => simp [claimCol] at h
  | cons a as ih =>
    rw [claimCol] at h
    by_cases ha : a ∈ used
    · rw [if_pos ha] at h
      have := ih h
      exact ⟨List.mem_cons_of_mem a this.1, this.2.1, this.2.2⟩
    · rw [if_neg ha] at h
      by_cases hm : fieldMatchesCol f a = true
      · rw [if_pos hm] at h
        rw [Option.some.injEq] at h
        subst h
        exact ⟨List.mem_cons_self a as, ha, hm⟩
      · rw [if_neg hm] at h
        have := ih h
        exact ⟨List.mem_cons_of_mem a this.1, this.2.1, this.2.2⟩

/-- The pattern phase only appends to the detection state. -/
theorem patPhase_det_append (cl : List String) (fs : List Field) (st : DetSt) :
    ∃ ex, (patPhase cl fs st).det = st.det ++ ex := by
  induction fs generalizing st with
  | nil => exact ⟨[], by simp [patPhase]⟩
  | cons f fs ih =>
    rw [patPhase]
    cases hc : claimCol f st.used cl with
    | none => exact ih st
    | some c =>
      obtain ⟨ex, hex⟩ := ih ⟨st.det ++ [(f, c)], st.used ++ [c]⟩
      exact ⟨[(f, c)] ++ ex, by rw [hex]; simp⟩

/-- A heuristic step only appends to the detection state. -/
theorem hGuard_det_append (f : Field) (find : List String → Option String) (st : DetSt) :
    ∃ ex, (hGuard f find st).det = st.det ++ ex := by
  unfold hGuard
  by_cases h : (lookupF f st.det).isSome
  · exact ⟨[], by simp [h]⟩
  · rw [if_neg h]
    cases hf : find st.used with
    | none => exact ⟨[], by simp⟩
    | some c => exact ⟨[(f, c)], rfl⟩

/-- Lookup is stable under appending further detections. -/
theorem lookupF_append {f : Field} {l1 : List (Field × String)} {c : String}
    (l2 : List (Field × String)) (h : lookupF f l1 = some c) :
    lookupF f (l1 ++ l2) = some c := by
  induction l1 with
  | nil => simp [lookupF] at h
  | cons p ps ih =>
    rw [List.cons_append, lookupF]
    rw [lookupF] at h
    by_cases hp : p.1 = f
    · rw [if_pos hp] at h ⊢
      exact h
    · rw [if_neg hp] at h ⊢
      exact ih h

/-- The pattern phase keeps `used` equal to the claimed column names and
never claims a column twice. -/
theorem patPhase_inv (cl : List String) (fs : List Field) (st : DetSt)
    (h1 : st.used = st.det.map Prod.snd)
    (h2 : (st.det.map Prod.snd).Nodup) :
    (patPhase cl fs st).used = (patPhase cl fs st).det.map Prod.snd ∧
    ((patPhase cl fs st).det.map Prod.snd).Nodup := by
  induction fs generalizing st with
  | nil => exact ⟨by simpa [patPhase] using h1, by simpa [patPhase] using h2⟩
  | cons f fs ih =>
    rw [patPhase]
    cases hc : claimCol f st.used cl with
    | none => exact ih st h1 h2
    | some c =>
      have hcu : c ∉ st.det.map Prod.snd := by
        rw [← h1]
        exact (claimCol_mem hc).2.1
      refine ih _ ?_ ?_
      · simp [h1]
      · simp only [List.map_append, List.map_cons, List.map_nil]
        rw [List.nodup_append]
        exact ⟨h2, List.nodup_singleton c, by simpa using hcu⟩

/-- `findFormantLoop` never returns a used column. -/
theorem findFormantLoop_not_used {lo hi : ℚ} {used : List String} {df : DF} {c : String}
    (h : findFormantLoop lo hi used df = some c) : c ∉ used := by
  induction df with
  | nil => simp [findFormantLoop] at h
  | cons nd rest ih =>
    obtain ⟨n, d⟩ := nd
    rw [findFormantLoop.eq_def] at h
    dsimp only at h
    by_cases hn : n ∈ used
    · rw [if_pos hn] at h; exact ih h
    · rw [if_neg hn] at h
      cases d with
      | strs vs => exact ih h
      | nums vs =>
        dsimp only at h
        split at h
        · exact ih h
        · split at h
          · rw [Option.some.injEq] at h; subst h; exact hn
          · exact ih h

/-- `findTimeColumn` never returns a used column. -/
theorem findTimeColumn_not_used {used : List String} {df : DF} {c : String}
    (h : findTimeColumn used df = some c) : c ∉ used := by
  induction df with
  | nil => simp [findTimeColumn] at h
  | cons nd rest ih =>
    obtain ⟨n, d⟩ := nd
    rw [findTimeColumn.eq_def] at h
    dsimp only at h
    by_cases hn : n ∈ used
    · rw [if_pos hn] at h; exact ih h
    · rw [if_neg hn] at h
      cases d with
      | strs vs => exact ih h
      | nums vs =>
        dsimp only at h
        split at h
        · exact ih h
        · split at h
          · split at h
            · rw [Option.some.injEq] at h; subst h; exact hn
            · exact ih h
          · exact ih h

/-- `findVowelColumn` never returns a used column. -/
theorem findVowelColumn_not_used {used : List String} {df : DF} {c : String}
    (h : findVowelColumn used df = some c) : c ∉ used := by
  induction df with
  | nil => simp [findVowelColumn] at h
  | cons nd rest ih =>
    obtain ⟨n, d⟩ := nd
    rw [findVowelColumn.eq_def] at h
    dsimp only at h
    by_cases hn : n ∈ used
    · rw [if_pos hn] at h; exact ih h
    · rw [if_neg hn] at h
      cases d with
      | nums vs => exact ih h
      | strs vs =>
        dsimp only at h
        split at h
        · split at h
          · exact ih h
          · split at h
            · split at h
              · rw [Option.some.injEq] at h; subst h; exact hn
              · split at h
                · rw [Option.some.injEq] at h; subst h; exact hn
                · exact ih h
            · exact ih h
        · exact ih h

/-- `findCategoricalColumn` never returns a used column. -/
theorem findCategoricalColumn_not_used {mu : Nat} {used : List String} {df : DF} {c : String}
    (h : findCategoricalColumn mu used df = some c) : c ∉ used := by
  induction df with
  | nil => simp [findCategoricalColumn] at h
  | cons nd rest ih =>
    obtain ⟨n, d⟩ := nd
    rw [findCategoricalColumn.eq_def] at h
    dsimp only at h
    by_cases hn : n ∈ used
    · rw [if_pos hn] at h; exact ih h
    · rw [if_neg hn] at h
      cases d with
      | nums vs => exact ih h
      | strs vs =>
        dsimp only at h
        split at h
        · rw [Option.some.injEq] at h; subst h; exact hn
        · exact ih h

/-- A heuristic step preserves the used-equals-values invariant and the
injectivity of the mapping. -/
theorem hGuard_inv (f : Field) (find : List String → Option String) (st : DetSt)
    (hfind : ∀ u c, find u = some c → c ∉ u)
    (h1 : st.used = st.det.map Prod.snd)
    (h2 : (st.det.map Prod.snd).Nodup) :
    (hGuard f find st).used = (hGuard f find st).det.map Prod.snd ∧
    ((hGuard f find st).det.map Prod.snd).Nodup := by
  unfold hGuard
  by_cases h : (lookupF f st.det).isSome
  · rw [if_pos h]; exact ⟨h1, h2⟩
  · rw [if_neg h]
    cases hf : find st.used with
    | none => exact ⟨h1, h2⟩
    | some c =>
      have hcu : c ∉ st.det.map Prod.snd := by
        rw [← h1]; exact hfind st.used c hf
      constructor
      · simp [h1]
      · simp only [List.map_append, List.map_cons, List.map_nil]
        rw [List.nodup_append]
        exact ⟨h2, List.nodup_singleton c, by simpa using hcu⟩

/-- The detected mapping never assigns one column to two fields: its values
are pairwise distinct. -/
theorem detect_columns_values_nodup (df : DF) :
    ((detect_columns df).map Prod.snd).Nodup := by
  unfold detect_columns
  dsimp only
  have i0 := patPhase_inv (dedupFirst (df.map Prod.fst)) fieldOrder ⟨[], []⟩ rfl (by simp)
  have i1 := hGuard_inv .F1 (fun u => findFormantByValue df 1 u) _
    (fun u c h => findFormantLoop_not_used h) i0.1 i0.2
  have i2 := hGuard_inv .F2 (fun u => findFormantByValue df 2 u) _
    (fun u c h => findFormantLoop_not_used h) i1.1 i1.2
  have i3 := hGuard_inv .F3 (fun u => findFormantByValue df 3 u) _
    (fun u c h => findFormantLoop_not_used h) i2.1 i2.2
  have i4 := hGuard_inv .time (fun u => findTimeColumn u df) _
    (fun u c h => findTimeColumn_not_used h) i3.1 i3.2
  have i5 := hGuard_inv .vowel (fun u => findVowelColumn u df) _
    (fun u c h => findVowelColumn_not_used h) i4.1 i4.2
  have i6 := hGuard_inv .speaker (fun u => findCategoricalColumn 50 u df) _
    (fun u c h => findCategoricalColumn_not_used h) i5.1 i5.2
  exact i6.2

/-- C3 (amended): whenever no column before the (first occurrence of the)
column literally named `F1` matches an F1 name-pattern, the pattern phase
claims that column for F1 — regardless of any other column's values — and
the returned mapping never assigns one column to two canonical fields. -/
theorem c3_amended (df : DF) (pre post : List String)
    (h : dedupFirst (df.map Prod.fst) = pre ++ "F1" :: post)
    (hpre : ∀ c ∈ pre, fieldMatchesCol .F1 c = false) :
    lookupF .F1 (detect_columns df) = some "F1" ∧
    ((detect_columns df).map Prod.snd).Nodup := by
  refine ⟨?_, detect_columns_values_nodup df⟩
  unfold detect_columns
  dsimp only
  have hcl : claimCol Field.F1 ([] : List String) (dedupFirst (df.map Prod.fst)) =
      some "F1" := by
    rw [h]
    exact claimCol_of_decomp _ _ _ _ _ (fun x hx => Or.inr (hpre x hx))
      (by simp) (by decide)
  have hord : fieldOrder = Field.F1 :: [Field.F2, Field.F3, Field.vowel, Field.speaker,
      Field.native_language, Field.time, Field.duration, Field.gender, Field.age] := rfl
  have hpp : ∃ ex, (patPhase (dedupFirst (df.map Prod.fst)) fieldOrder ⟨[], []⟩).det =
      [(Field.F1, "F1")] ++ ex := by
    rw [hord, patPhase, hcl]
    exact patPhase_det_append _ _ _
  obtain ⟨ex, hex⟩ := hpp
  obtain ⟨e1, he1⟩ := hGuard_det_append .F1 (fun u => findFormantByValue df 1 u) _
  obtain ⟨e2, he2⟩ := hGuard_det_append .F2 (fun u => findFormantByValue df 2 u) _
  obtain ⟨e3, he3⟩ := hGuard_det_append .F3 (fun u => findFormantByValue df 3 u) _
  obtain ⟨e4, he4⟩ := hGuard_det_append .time (fun u => findTimeColumn u df) _
  obtain ⟨e5, he5⟩ := hGuard_det_append .vowel (fun u => findVowelColumn u df) _
  obtain ⟨e6, he6⟩ := hGuard_det_append .speaker (fun u => findCategoricalColumn 50 u df) _
  rw [he6, he5, he4, he3, he2, he1, hex]
  simp only [List.append_assoc]
  exact lookupF_append _ rfl

/-- Witness for the amended C3 on a frame whose first column is literally
`F1`. -/
theorem c3_witness :
    dedupFirst (c8df.map Prod.fst) = [] ++ "F1" :: ["F2"] ∧
    lookupF .F1 (detect_columns c8df) = some "F1" := by
  refine ⟨by decide, ?_⟩
  exact (c3_amended c8df [] ["F2"] (by decide) (by simp)).1

/-- C3 (counterexample to the claim as stated): in a frame with columns
`first_formant` and `F1`, pattern matching greedily claims `first_formant`
for F1 — which also matches an F1 name-pattern and comes first — so F1 is
not mapped to the column literally named `F1`. -/
theorem c3_counterexample :
    lookupF .F1 (detect_columns c3df) = some "first_formant" ∧
    ¬ lookupF .F1 (detect_columns c3df) = some "F1" := by
  constructor
  · decide
  · decide

/-! ## C8 — detection idempotence

Supporting facts about the canonical names, lookups, `claimCol`, and the two
phases of `detect_columns`, leading to `c8_detect_idempotent`: re-detecting
after renaming maps every originally detected field to its canonical name. -/

/-- Each field's canonical name matches that field's own patterns. -/
theorem canonical_self_match : ∀ f : Field, fieldMatchesCol f (canonicalName f) = true := by
  decide

/-- No field's canonical name matches another field's patterns. -/
theorem canonical_cross_nomatch :
    ∀ f g : Field, ¬ f = g → fieldMatchesCol f (canonicalName g) = false := by
  decide

/-- Canonical names are pairwise distinct. -/
theorem canonicalName_inj : ∀ f g : Field, canonicalName f = canonicalName g → f = g := by
  decide

/-- Every field is processed by the pattern phase. -/
theorem mem_fieldOrder : ∀ f : Field, f ∈ fieldOrder := by decide

/-- The pattern-phase field order has no repeats. -/
theorem fieldOrder_nodup : fieldOrder.Nodup := by decide

/-- A successful lookup locates an entry of the mapping. -/
theorem lookupF_some_mem {f : Field} {l : List (Field × String)} {c : String}
    (h : lookupF f l = some c) : (f, c) ∈ l := by
  induction l with
  | nil => simp [lookupF] at h
  | cons p ps ih =>
    rw [lookupF] at h
    by_cases hp : p.1 = f
    · rw [if_pos hp] at h
      rw [Option.some.injEq] at h
      obtain ⟨p1, p2⟩ := p
      cases hp
      cases h
      exact List.mem_cons_self _ _
    · rw [if_neg hp] at h
      exact List.mem_cons_of_mem p (ih h)

/-- A lookup fails exactly when the field is not among the keys. -/
theorem lookupF_eq_none {f : Field} {l : List (Field × String)} :
    lookupF f l = none ↔ ¬ f ∈ l.map Prod.fst := by
  induction l with
  | nil => simp [lookupF]
  | cons p ps ih =>
    rw [lookupF]
    by_cases hp : p.1 = f
    · rw [if_pos hp]
      simp [hp]
    · rw [if_neg hp]
      simp only [List.map_cons, List.mem_cons]
      rw [ih]
      constructor
      · intro h hm
        rcases hm with hm | hm
        · exact hp hm.symm
        · exact h hm
      · intro h
        exact fun hm => h (Or.inr hm)

/-- A failing lookup over a concatenation fails on the left part. -/
theorem lookupF_none_left {f : Field} {l1 l2 : List (Field × String)}
    (h : lookupF f (l1 ++ l2) = none) : lookupF f l1 = none := by
  rw [lookupF_eq_none] at h ⊢
  intro hm
  exact h (by simp only [List.map_append, List.mem_append]; exact Or.inl hm)

/-- Lookups failing on both parts fail on the concatenation. -/
theorem lookupF_append_none {f : Field} {l1 l2 : List (Field × String)}
    (h1 : lookupF f l1 = none) (h2 : lookupF f l2 = none) :
    lookupF f (l1 ++ l2) = none := by
  rw [lookupF_eq_none] at h1 h2 ⊢
  intro hm
  rw [List.map_append, List.mem_append] at hm
  exact hm.elim h1 h2

/-- Appending a fresh binding for `f` makes the lookup find it. -/
theorem lookupF_append_self {f : Field} {l1 : List (Field × String)} {x : String}
    (h : lookupF f l1 = none) : lookupF f (l1 ++ [(f, x)]) = some x := by
  induction l1 with
  | nil => simp [lookupF]
  | cons p ps ih =>
    rw [lookupF] at h
    rw [List.cons_append, lookupF]
    by_cases hp : p.1 = f
    · rw [if_pos hp] at h
      exact absurd h (by simp)
    · rw [if_neg hp] at h ⊢
      exact ih h

/-- An entry of the mapping makes its key's lookup succeed. -/
theorem lookupF_ne_none_of_mem {f : Field} {c : String} {l : List (Field × String)}
    (h : (f, c) ∈ l) : ¬ lookupF f l = none := by
  intro hn
  exact (lookupF_eq_none.mp hn) (List.mem_map.mpr ⟨(f, c), h, rfl⟩)

/-- With duplicate-free keys the mapping is functional. -/
theorem mem_functional {l : List (Field × String)} (hnd : (l.map Prod.fst).Nodup)
    {f : Field} {a b : String} (ha : (f, a) ∈ l) (hb : (f, b) ∈ l) : a = b := by
  induction l with
  | nil => simp at ha
  | cons p ps ih =>
    have hnd2 : (ps.map Prod.fst).Nodup := by
      rw [List.map_cons, List.nodup_cons] at hnd
      exact hnd.2
    have hhead : ¬ p.1 ∈ ps.map Prod.fst := by
      rw [List.map_cons, List.nodup_cons] at hnd
      exact hnd.1
    rcases List.mem_cons.mp ha with rfl | ha2
    · rcases List.mem_cons.mp hb with hb1 | hb2
      · exact (Prod.mk.injEq _ _ _ _ |>.mp hb1.symm).2
      · have hh : ∀ x : String, ¬ (f, x) ∈ ps := by simpa using hhead
        exact absurd hb2 (hh b)
    · rcases List.mem_cons.mp hb with rfl | hb2
      · have hh : ∀ x : String, ¬ (f, x) ∈ ps := by simpa using hhead
        exact absurd ha2 (hh a)
      · exact ih hnd2 ha2 hb2

/-- A value of the mapping comes with its field. -/
theorem mem_snd_exists {l : List (Field × String)} {y : String}
    (h : y ∈ l.map Prod.snd) : ∃ g, (g, y) ∈ l := by
  obtain ⟨p, hp, hpy⟩ := List.mem_map.mp h
  exact ⟨p.1, by rwa [show (p.1, y) = p from by rw [← hpy]]⟩

/-- With duplicate-free values, the reverse lookup of an entry's value
returns its field. -/
theorem revLookup_of_mem {m : List (Field × String)} (hvals : (m.map Prod.snd).Nodup)
    {g : Field} {c : String} (h : (g, c) ∈ m) : revLookup m c = some g := by
  have hfilter : m.filter (fun p => p.2 == c) = [(g, c)] := by
    induction m with
    | nil => simp at h
    | cons p ps ih =>
      simp only [List.map_cons, List.nodup_cons] at hvals
      rcases List.mem_cons.mp h with rfl | h2
      · rw [List.filter_cons_of_pos (by simp)]
        have : ps.filter (fun p => p.2 == c) = [] := by
          refine List.filter_eq_nil_iff.mpr ?_
          intro p hp hc
          exact hvals.1 (List.mem_map.mpr ⟨p, hp, by simpa using hc⟩)
        rw [this]
      · have hpc : ¬ p.2 = c := by
          intro he
          exact hvals.1 (he ▸ List.mem_map.mpr ⟨(g, c), h2, rfl⟩)
        rw [List.filter_cons_of_neg (by simpa using hpc)]
        exact ih hvals.2 h2
  unfold revLookup
  rw [hfilter]
  rfl

/-- The reverse lookup of an unclaimed name fails. -/
theorem revLookup_not_mem {m : List (Field × String)} {c : String}
    (h : ¬ c ∈ m.map Prod.snd) : revLookup m c = none := by
  have hfilter : m.filter (fun p => p.2 == c) = [] := by
    refine List.filter_eq_nil_iff.mpr ?_
    intro p hp hc
    exact h (List.mem_map.mpr ⟨p, hp, by simpa using hc⟩)
  unfold revLookup
  rw [hfilter]
  rfl

/-- Renaming sends a claimed name to its field's canonical name. -/
theorem renameName_of_mem {m : List (Field × String)} (hvals : (m.map Prod.snd).Nodup)
    {g : Field} {c : String} (h : (g, c) ∈ m) :
    renameName m c = canonicalName g := by
  unfold renameName
  rw [revLookup_of_mem hvals h]

/-- Renaming leaves an unclaimed name unchanged. -/
theorem renameName_not_mem {m : List (Field × String)} {c : String}
    (h : ¬ c ∈ m.map Prod.snd) : renameName m c = c := by
  unfold renameName
  rw [revLookup_not_mem h]

/-- The column names of the renamed dataframe are the renamed column
names. -/
theorem rename_columns_names (df : DF) (m : List (Field × String)) :
    (rename_columns df m).map Prod.fst = (df.map Prod.fst).map (renameName m) := by
  induction df with
  | nil => rfl
  | cons nd rest ih =>
    simp only [rename_columns, renameName, List.map_cons] at ih ⊢
    rw [← ih]
    cases hr : revLookup m nd.1 <;> simp [hr]

/-- The prefix scanned before a claimed column holds only used or
non-matching names. -/
theorem claimCol_decomp {f : Field} {used l : List String} {c : String}
    (h : claimCol f used l = some c) :
    ∃ P Q, l = P ++ c :: Q ∧
      ∀ y ∈ P, y ∈ used ∨ fieldMatchesCol f y = false := by
  induction l with
  | nil => simp [claimCol] at h
  | cons a as ih =>
    rw [claimCol] at h
    by_cases ha : a ∈ used
    · rw [if_pos ha] at h
      obtain ⟨P, Q, hPQ, hP⟩ := ih h
      refine ⟨a :: P, Q, by rw [hPQ, List.cons_append], ?_⟩
      intro y hy
      rcases List.mem_cons.mp hy with rfl | hy2
      · exact Or.inl ha
      · exact hP y hy2
    · rw [if_neg ha] at h
      by_cases hm : fieldMatchesCol f a = true
      · rw [if_pos hm, Option.some.injEq] at h
        subst h
        exact ⟨[], as, rfl, by simp⟩
      · rw [if_neg hm] at h
        obtain ⟨P, Q, hPQ, hP⟩ := ih h
        refine ⟨a :: P, Q, by rw [hPQ, List.cons_append], ?_⟩
        intro y hy
        rcases List.mem_cons.mp hy with rfl | hy2
        · exact Or.inr (by simpa using hm)
        · exact hP y hy2

/-- When nothing is claimed, every scanned column is used or
non-matching. -/
theorem claimCol_none_spec {f : Field} {used l : List String}
    (h : claimCol f used l = none) :
    ∀ y ∈ l, y ∈ used ∨ fieldMatchesCol f y = false := by
  induction l with
  | nil => simp
  | cons a as ih =>
    rw [claimCol] at h
    intro y hy
    by_cases ha : a ∈ used
    · rw [if_pos ha] at h
      rcases List.mem_cons.mp hy with rfl | hy2
      · exact Or.inl ha
      · exact ih h y hy2
    · rw [if_neg ha] at h
      by_cases hm : fieldMatchesCol f a = true
      · rw [if_pos hm] at h
        exact absurd h (by simp)
      · rw [if_neg hm] at h
        rcases List.mem_cons.mp hy with rfl | hy2
        · exact Or.inr (by simpa using hm)
        · exact ih h y hy2

/-- Conversely, a scan over only used or non-matching columns claims
nothing. -/
theorem claimCol_eq_none {f : Field} {used l : List String}
    (h : ∀ y ∈ l, y ∈ used ∨ fieldMatchesCol f y = false) :
    claimCol f used l = none := by
  induction l with
  | nil => rfl
  | cons a as ih =>
    rw [claimCol]
    rcases h a (List.mem_cons_self a as) with ha | ha
    · rw [if_pos ha]
      exact ih (fun y hy => h y (List.mem_cons_of_mem a hy))
    · by_cases hu : a ∈ used
      · rw [if_pos hu]
        exact ih (fun y hy => h y (List.mem_cons_of_mem a hy))
      · rw [if_neg hu, ha]
        simp only [Bool.false_eq_true, if_false]
        exact ih (fun y hy => h y (List.mem_cons_of_mem a hy))

/-- First-match claiming is blind to duplicate column names: deduplication
does not change the claimed column. -/
theorem claimCol_dedup (f : Field) (used l : List String) :
    claimCol f used (dedupFirst l) = claimCol f used l := by
  suffices h : ∀ (l seen : List String),
      (∀ s ∈ seen, s ∈ used ∨ fieldMatchesCol f s = false) →
      claimCol f used (dedupAux seen l) = claimCol f used l by
    exact h l [] (by simp)
  intro l
  induction l with
  | nil => intro seen _; rfl
  | cons a as ih =>
    intro seen hseen
    rw [dedupAux]
    by_cases ha : a ∈ seen
    · rw [if_pos ha, ih seen hseen]
      rcases hseen a ha with h1 | h1
      · rw [claimCol, if_pos h1]
      · rw [claimCol]
        by_cases hu : a ∈ used
        · rw [if_pos hu]
        · rw [if_neg hu, h1]
          simp
    · rw [if_neg ha, claimCol, claimCol]
      by_cases hu : a ∈ used
      · rw [if_pos hu, if_pos hu]
        exact ih (a :: seen) (fun s hs =>
          (List.mem_cons.mp hs).elim (fun he => he ▸ Or.inl hu) (hseen s))
      · rw [if_neg hu, if_neg hu]
        by_cases hm : fieldMatchesCol f a = true
        · rw [if_pos hm, if_pos hm]
        · rw [if_neg hm, if_neg hm]
          exact ih (a :: seen) (fun s hs =>
            (List.mem_cons.mp hs).elim
              (fun he => he ▸ Or.inr (by simpa using hm)) (hseen s))

/-- Any member splits its list at its first occurrence. -/
theorem mem_first_decomp {α : Type} [DecidableEq α] {l : List α} {c : α} (h : c ∈ l) :
    ∃ P Q, l = P ++ c :: Q ∧ ¬ c ∈ P := by
  induction l with
  | nil => simp at h
  | cons a as ih =>
    by_cases hac : a = c
    · exact ⟨[], as, by rw [hac]; rfl, by simp⟩
    · have h2 : c ∈ as := by
        rcases List.mem_cons.mp h with h1 | h1
        · exact absurd h1.symm hac
        · exact h1
      obtain ⟨P, Q, hPQ, hP⟩ := ih h2
      refine ⟨a :: P, Q, by rw [hPQ, List.cons_append], ?_⟩
      intro hm
      rcases List.mem_cons.mp hm with h1 | h1
      · exact hac h1.symm
      · exact hP h1

/-- The pattern phase only adds to the used set. -/
theorem patPhase_used_mono (cl : List String) (fs : List Field) (st : DetSt) :
    ∀ x ∈ st.used, x ∈ (patPhase cl fs st).used := by
  induction fs generalizing st with
  | nil => intro x hx; rw [patPhase]; exact hx
  | cons f fs ih =>
    intro x hx
    rw [patPhase]
    cases hc : claimCol f st.used cl with
    | none => exact ih st x hx
    | some c => exact ih _ x (List.mem_append_left _ hx)

/-- Every pattern-phase entry beyond the initial state was claimed by
`claimCol` from a used set below the final one. -/
theorem patPhase_entries (cl : List String) (fs : List Field) (st : DetSt) :
    ∀ p ∈ (patPhase cl fs st).det, p ∈ st.det ∨
      ∃ u, (∀ x ∈ u, x ∈ (patPhase cl fs st).used) ∧ claimCol p.1 u cl = some p.2 := by
  induction fs generalizing st with
  | nil =>
    intro p hp
    rw [patPhase] at hp
    exact Or.inl hp
  | cons f fs ih =>
    intro p hp
    cases hc : claimCol f st.used cl with
    | none =>
      have hres : patPhase cl (f :: fs) st = patPhase cl fs st := by rw [patPhase, hc]
      rw [hres] at hp ⊢
      exact ih st p hp
    | some c =>
      have hres : patPhase cl (f :: fs) st =
          patPhase cl fs ⟨st.det ++ [(f, c)], st.used ++ [c]⟩ := by rw [patPhase, hc]
      rw [hres] at hp ⊢
      rcases ih _ p hp with hin | hex
      · rcases List.mem_append.mp hin with hin | hin
        · exact Or.inl hin
        · right
          refine ⟨st.used, ?_, ?_⟩
          · intro x hx
            exact patPhase_used_mono cl fs _ x (List.mem_append_left _ hx)
          · have hpc : p = (f, c) := by simpa using hin
            rw [hpc]
            exact hc
      · exact Or.inr hex

/-- A field processed by the pattern phase but absent from its output
matched nothing: its scan returned `none` from some used set below the final
one. -/
theorem patPhase_unclaimed (cl : List String) (fs : List Field) (st : DetSt)
    (f : Field) (hf : f ∈ fs)
    (hnone : lookupF f (patPhase cl fs st).det = none) :
    ∃ u, (∀ x ∈ u, x ∈ (patPhase cl fs st).used) ∧ claimCol f u cl = none := by
  induction fs generalizing st with
  | nil => simp at hf
  | cons g gs ih =>
    cases hcg : claimCol g st.used cl with
    | none =>
      have hres : patPhase cl (g :: gs) st = patPhase cl gs st := by rw [patPhase, hcg]
      rw [hres] at hnone ⊢
      rcases List.mem_cons.mp hf with rfl | hf2
      · exact ⟨st.used, fun x hx => patPhase_used_mono cl gs st x hx, hcg⟩
      · exact ih st hf2 hnone
    | some c =>
      have hres : patPhase cl (g :: gs) st =
          patPhase cl gs ⟨st.det ++ [(g, c)], st.used ++ [c]⟩ := by rw [patPhase, hcg]
      rw [hres] at hnone ⊢
      rcases List.mem_cons.mp hf with rfl | hf2
      · exfalso
        obtain ⟨ex, hex⟩ := patPhase_det_append cl gs ⟨st.det ++ [(f, c)], st.used ++ [c]⟩
        rw [hex] at hnone
        have h1 := lookupF_none_left hnone
        rw [lookupF_eq_none] at h1
        exact h1 (by simp)
      · exact ih _ hf2 hnone

/-- The pattern phase claims each field at most once: the output keys are
duplicate-free. -/
theorem patPhase_keys_nodup (cl : List String) (fs : List Field) (st : DetSt)
    (hnd : (st.det.map Prod.fst).Nodup)
    (hnone : ∀ f ∈ fs, lookupF f st.det = none) (hfs : fs.Nodup) :
    ((patPhase cl fs st).det.map Prod.fst).Nodup := by
  induction fs generalizing st with
  | nil => rw [patPhase]; exact hnd
  | cons g gs ih =>
    rcases List.nodup_cons.mp hfs with ⟨hg, hgs⟩
    cases hcg : claimCol g st.used cl with
    | none =>
      have hres : patPhase cl (g :: gs) st = patPhase cl gs st := by rw [patPhase, hcg]
      rw [hres]
      exact ih st hnd (fun f hf => hnone f (List.mem_cons_of_mem g hf)) hgs
    | some c =>
      have hres : patPhase cl (g :: gs) st =
          patPhase cl gs ⟨st.det ++ [(g, c)], st.used ++ [c]⟩ := by rw [patPhase, hcg]
      rw [hres]
      refine ih _ ?_ ?_ hgs
      · have hgk : ¬ g ∈ st.det.map Prod.fst :=
          lookupF_eq_none.mp (hnone g (List.mem_cons_self g gs))
        simp only [List.map_append, List.map_cons, List.map_nil]
        rw [List.nodup_append]
        exact ⟨hnd, List.nodup_singleton g, by simpa using hgk⟩
      · intro f hf
        refine lookupF_append_none (hnone f (List.mem_cons_of_mem g hf)) ?_
        rw [lookupF_eq_none]
        simp only [List.map_cons, List.map_nil, List.mem_singleton]
        exact fun he => hg (he ▸ hf)

/-- A heuristic step only adds to the used set. -/
theorem hGuard_used_mono (f : Field) (find : List String → Option String) (st : DetSt) :
    ∀ x ∈ st.used, x ∈ (hGuard f find st).used := by
  unfold hGuard
  by_cases h : (lookupF f st.det).isSome
  · rw [if_pos h]
    exact fun x hx => hx
  · rw [if_neg h]
    cases hf : find st.used with
    | none => exact fun x hx => hx
    | some c => exact fun x hx => List.mem_append_left _ hx

/-- A heuristic step's new entry records its field, the failed lookup and
the finder's answer. -/
theorem hGuard_entries (f : Field) (find : List String → Option String) (st : DetSt) :
    ∀ p ∈ (hGuard f find st).det,
      p ∈ st.det ∨ (p.1 = f ∧ lookupF f st.det = none ∧ find st.used = some p.2) := by
  unfold hGuard
  by_cases h : (lookupF f st.det).isSome
  · rw [if_pos h]
    exact fun p hp => Or.inl hp
  · rw [if_neg h]
    cases hf : find st.used with
    | none => exact fun p hp => Or.inl hp
    | some c =>
      intro p hp
      rcases List.mem_append.mp hp with hp | hp
      · exact Or.inl hp
      · have hpc : p = (f, c) := by simpa using hp
        subst hpc
        exact Or.inr ⟨rfl, Option.not_isSome_iff_eq_none.mp h, by simp [hf]⟩

/-- A heuristic step keeps the keys duplicate-free. -/
theorem hGuard_keys_nodup (f : Field) (find : List String → Option String) (st : DetSt)
    (hnd : (st.det.map Prod.fst).Nodup) :
    ((hGuard f find st).det.map Prod.fst).Nodup := by
  unfold hGuard
  by_cases h : (lookupF f st.det).isSome
  · rw [if_pos h]; exact hnd
  · rw [if_neg h]
    cases hf : find st.used with
    | none => exact hnd
    | some c =>
      have hgk : ¬ f ∈ st.det.map Prod.fst :=
        lookupF_eq_none.mp (Option.not_isSome_iff_eq_none.mp h)
      simp only [List.map_append, List.map_cons, List.map_nil]
      rw [List.nodup_append]
      exact ⟨hnd, List.nodup_singleton f, by simpa using hgk⟩

/-- The heuristic chain only appends to the detection state. -/
theorem applyGuards_det_append (gs : List (Field × (List String → Option String)))
    (st : DetSt) : ∃ ex, (applyGuards gs st).det = st.det ++ ex := by
  induction gs generalizing st with
  | nil => exact ⟨[], by simp [applyGuards]⟩
  | cons q rest ih =>
    rw [applyGuards]
    obtain ⟨e1, he1⟩ := hGuard_det_append q.1 q.2 st
    obtain ⟨e2, he2⟩ := ih (hGuard q.1 q.2 st)
    exact ⟨e1 ++ e2, by rw [he2, he1, List.append_assoc]⟩

/-- The heuristic chain only adds to the used set. -/
theorem applyGuards_used_mono (gs : List (Field × (List String → Option String)))
    (st : DetSt) : ∀ x ∈ st.used, x ∈ (applyGuards gs st).used := by
  induction gs generalizing st with
  | nil => intro x hx; rw [applyGuards]; exact hx
  | cons q rest ih =>
    intro x hx
    rw [applyGuards]
    exact ih _ x (hGuard_used_mono q.1 q.2 st x hx)

/-- The heuristic chain preserves the used-equals-values invariant and the
injectivity of the claimed columns. -/
theorem applyGuards_inv (gs : List (Field × (List String → Option String)))
    (st : DetSt)
    (hfind : ∀ q ∈ gs, ∀ u c, q.2 u = some c → ¬ c ∈ u)
    (h1 : st.used = st.det.map Prod.snd)
    (h2 : (st.det.map Prod.snd).Nodup) :
    (applyGuards gs st).used = (applyGuards gs st).det.map Prod.snd ∧
    ((applyGuards gs st).det.map Prod.snd).Nodup := by
  induction gs generalizing st with
  | nil => rw [applyGuards]; exact ⟨h1, h2⟩
  | cons q rest ih =>
    rw [applyGuards]
    have hq := hGuard_inv q.1 q.2 st
      (fun u c h => hfind q (List.mem_cons_self q rest) u c h) h1 h2
    exact ih _ (fun p hp => hfind p (List.mem_cons_of_mem q hp)) hq.1 hq.2

/-- The heuristic chain keeps the keys duplicate-free. -/
theorem applyGuards_keys_nodup (gs : List (Field × (List String → Option String)))
    (st : DetSt) (hnd : (st.det.map Prod.fst).Nodup) :
    ((applyGuards gs st).det.map Prod.fst).Nodup := by
  induction gs generalizing st with
  | nil => rw [applyGuards]; exact hnd
  | cons q rest ih =>
    rw [applyGuards]
    exact ih _ (hGuard_keys_nodup q.1 q.2 st hnd)

/-- Every entry added by the heuristic chain comes from one of its steps,
for a field the pattern phase had left undetected. -/
theorem applyGuards_entries (gs : List (Field × (List String → Option String)))
    (st : DetSt) :
    ∀ p ∈ (applyGuards gs st).det, p ∈ st.det ∨
      ∃ q ∈ gs, p.1 = q.1 ∧ lookupF p.1 st.det = none ∧ ∃ u, q.2 u = some p.2 := by
  induction gs generalizing st with
  | nil =>
    intro p hp
    rw [applyGuards] at hp
    exact Or.inl hp
  | cons q rest ih =>
    intro p hp
    rw [applyGuards] at hp
    rcases ih _ p hp with hin | ⟨q2, hq2, he, hnone, u, hu⟩
    · rcases hGuard_entries q.1 q.2 st p hin with hin | ⟨he, hnone, hf⟩
      · exact Or.inl hin
      · exact Or.inr ⟨q, List.mem_cons_self q rest, he, he ▸ hnone, st.used, hf⟩
    · obtain ⟨e1, he1⟩ := hGuard_det_append q.1 q.2 st
      rw [he1] at hnone
      exact Or.inr ⟨q2, List.mem_cons_of_mem q hq2, he, lookupF_none_left hnone, u, hu⟩

/-- `detect_columns` is the heuristic chain applied to the pattern phase. -/
theorem detect_columns_eq_chain (df : DF) :
    detect_columns df =
      (applyGuards (heuristicSteps df)
        (patPhase (dedupFirst (df.map Prod.fst)) fieldOrder ⟨[], []⟩)).det := rfl

/-- `findFormantLoop` returns a column of the frame. -/
theorem findFormantLoop_mem {lo hi : ℚ} {used : List String} {df : DF} {c : String}
    (h : findFormantLoop lo hi used df = some c) : c ∈ df.map Prod.fst := by
  induction df with
  | nil => simp [findFormantLoop] at h
  | cons nd rest ih =>
    obtain ⟨n, d⟩ := nd
    simp only [List.map_cons, List.mem_cons]
    rw [findFormantLoop.eq_def] at h
    dsimp only at h
    by_cases hn : n ∈ used
    · rw [if_pos hn] at h
      exact Or.inr (ih h)
    · rw [if_neg hn] at h
      cases d with
      | strs vs => exact Or.inr (ih h)
      | nums vs =>
        dsimp only at h
        split at h
        · exact Or.inr (ih h)
        · split at h
          · rw [Option.some.injEq] at h
            exact Or.inl h.symm
          · exact Or.inr (ih h)

/-- `findTimeColumn` returns a column of the frame. -/
theorem findTimeColumn_mem {used : List String} {df : DF} {c : String}
    (h : findTimeColumn used df = some c) : c ∈ df.map Prod.fst := by
  induction df with
  | nil => simp [findTimeColumn] at h
  | cons nd rest ih =>
    obtain ⟨n, d⟩ := nd
    simp only [List.map_cons, List.mem_cons]
    rw [findTimeColumn.eq_def] at h
    dsimp only at h
    by_cases hn : n ∈ used
    · rw [if_pos hn] at h
      exact Or.inr (ih h)
    · rw [if_neg hn] at h
      cases d with
      | strs vs => exact Or.inr (ih h)
      | nums vs =>
        dsimp only at h
        split at h
        · exact Or.inr (ih h)
        · split at h
          · split at h
            · rw [Option.some.injEq] at h
              exact Or.inl h.symm
            · exact Or.inr (ih h)
          · exact Or.inr (ih h)

/-- `findVowelColumn` returns a column of the frame. -/
theorem findVowelColumn_mem {used : List String} {df : DF} {c : String}
    (h : findVowelColumn used df = some c) : c ∈ df.map Prod.fst := by
  induction df with
  | nil => simp [findVowelColumn] at h
  | cons nd rest ih =>
    obtain ⟨n, d⟩ := nd
    simp only [List.map_cons, List.mem_cons]
    rw [findVowelColumn.eq_def] at h
    dsimp only at h
    by_cases hn : n ∈ used
    · rw [if_pos hn] at h
      exact Or.inr (ih h)
    · rw [if_neg hn] at h
      cases d with
      | nums vs => exact Or.inr (ih h)
      | strs vs =>
        dsimp only at h
        split at h
        · split at h
          · exact Or.inr (ih h)
          · split at h
            · split at h
              · rw [Option.some.injEq] at h
                exact Or.inl h.symm
              · split at h
                · rw [Option.some.injEq] at h
                  exact Or.inl h.symm
                · exact Or.inr (ih h)
            · exact Or.inr (ih h)
        · exact Or.inr (ih h)

/-- `findCategoricalColumn` returns a column of the frame. -/
theorem findCategoricalColumn_mem {mu : Nat} {used : List String} {df : DF} {c : String}
    (h : findCategoricalColumn mu used df = some c) : c ∈ df.map Prod.fst := by
  induction df with
  | nil => simp [findCategoricalColumn] at h
  | cons nd rest ih =>
    obtain ⟨n, d⟩ := nd
    simp only [List.map_cons, List.mem_cons]
    rw [findCategoricalColumn.eq_def] at h
    dsimp only at h
    by_cases hn : n ∈ used
    · rw [if_pos hn] at h
      exact Or.inr (ih h)
    · rw [if_neg hn] at h
      cases d with
      | nums vs => exact Or.inr (ih h)
      | strs vs =>
        dsimp only at h
        split at h
        · rw [Option.some.injEq] at h
          exact Or.inl h.symm
        · exact Or.inr (ih h)

/-- Every finder of the heuristic chain returns an unused column of the
frame. -/
theorem heuristicSteps_sound (df : DF) :
    ∀ q ∈ heuristicSteps df, ∀ u c, q.2 u = some c →
      ¬ c ∈ u ∧ c ∈ df.map Prod.fst := by
  intro q hq u c h
  simp only [heuristicSteps, List.mem_cons] at hq
  rcases hq with rfl | rfl | rfl | rfl | rfl | rfl | hq
  · exact ⟨findFormantLoop_not_used h, findFormantLoop_mem h⟩
  · exact ⟨findFormantLoop_not_used h, findFormantLoop_mem h⟩
  · exact ⟨findFormantLoop_not_used h, findFormantLoop_mem h⟩
  · exact ⟨findTimeColumn_not_used h, findTimeColumn_mem h⟩
  · exact ⟨findVowelColumn_not_used h, findVowelColumn_mem h⟩
  · exact ⟨findCategoricalColumn_not_used h, findCategoricalColumn_mem h⟩
  · simp at hq

/-- The combined specification of `detect_columns` used by the idempotence
proof: duplicate-free keys and values; every entry either pattern-claimed by
a `claimCol` scan (from a used set inside the mapping's values) or
heuristic-claimed (a column of the frame, for a field whose pattern scan
found nothing); and every undetected field's pattern scan found nothing. -/
theorem detect_spec (df : DF) :
    ((detect_columns df).map Prod.fst).Nodup ∧
    ((detect_columns df).map Prod.snd).Nodup ∧
    (∀ p ∈ detect_columns df,
      (∃ u, (∀ x ∈ u, x ∈ (detect_columns df).map Prod.snd) ∧
        claimCol p.1 u (df.map Prod.fst) = some p.2) ∨
      (p.2 ∈ df.map Prod.fst ∧
       ∃ u, (∀ x ∈ u, x ∈ (detect_columns df).map Prod.snd) ∧
        claimCol p.1 u (df.map Prod.fst) = none)) ∧
    (∀ f : Field, lookupF f (detect_columns df) = none →
      ∃ u, (∀ x ∈ u, x ∈ (detect_columns df).map Prod.snd) ∧
        claimCol f u (df.map Prod.fst) = none) := by
  have hst1inv := patPhase_inv (dedupFirst (df.map Prod.fst)) fieldOrder ⟨[], []⟩ rfl
    (by simp)
  have hchain := detect_columns_eq_chain df
  obtain ⟨ex, hex⟩ := applyGuards_det_append (heuristicSteps df)
    (patPhase (dedupFirst (df.map Prod.fst)) fieldOrder ⟨[], []⟩)
  have hsnd : ∀ x ∈ (patPhase (dedupFirst (df.map Prod.fst)) fieldOrder
      ⟨[], []⟩).used, x ∈ (detect_columns df).map Prod.snd := by
    intro x hx
    rw [hst1inv.1] at hx
    rw [hchain, hex, List.map_append]
    exact List.mem_append_left _ hx
  refine ⟨?_, ?_, ?_, ?_⟩
  · rw [hchain]
    refine applyGuards_keys_nodup _ _ ?_
    exact patPhase_keys_nodup _ fieldOrder ⟨[], []⟩ (by simp) (by simp [lookupF])
      fieldOrder_nodup
  · rw [hchain]
    exact (applyGuards_inv _ _
      (fun q hq u c h => ((heuristicSteps_sound df) q hq u c h).1)
      hst1inv.1 hst1inv.2).2
  · intro p hp
    rw [hchain] at hp
    rcases applyGuards_entries _ _ p hp with hin | ⟨q, hq, hpq, hnone, u, hu⟩
    · rcases patPhase_entries _ fieldOrder ⟨[], []⟩ p hin with habs | ⟨u, hu, hcc⟩
      · simp at habs
      · left
        refine ⟨u, fun x hx => hsnd x (hu x hx), ?_⟩
        rw [← claimCol_dedup]
        exact hcc
    · right
      refine ⟨((heuristicSteps_sound df) q hq u p.2 hu).2, ?_⟩
      obtain ⟨u2, hu2, hcc⟩ := patPhase_unclaimed (dedupFirst (df.map Prod.fst))
        fieldOrder ⟨[], []⟩ p.1 (mem_fieldOrder p.1) hnone
      refine ⟨u2, fun x hx => hsnd x (hu2 x hx), ?_⟩
      rw [← claimCol_dedup]
      exact hcc
  · intro f hf
    rw [hchain, hex] at hf
    have hnone := lookupF_none_left hf
    obtain ⟨u2, hu2, hcc⟩ := patPhase_unclaimed (dedupFirst (df.map Prod.fst))
      fieldOrder ⟨[], []⟩ f (mem_fieldOrder f) hnone
    refine ⟨u2, fun x hx => hsnd x (hu2 x hx), ?_⟩
    rw [← claimCol_dedup]
    exact hcc

/-- Scanning the renamed columns for a detected field claims exactly its
canonical name. -/
theorem pass2_claimCol_some
    (m : List (Field × String)) (names : List String)
    (hkeys : (m.map Prod.fst).Nodup) (hvals : (m.map Prod.snd).Nodup)
    (f : Field) (c : String) (hfc : (f, c) ∈ m)
    (horigin :
      (∃ u, (∀ x ∈ u, x ∈ m.map Prod.snd) ∧ claimCol f u names = some c) ∨
      (c ∈ names ∧ ∃ u, (∀ x ∈ u, x ∈ m.map Prod.snd) ∧ claimCol f u names = none))
    (used2 : List String)
    (hused2 : ∀ x ∈ used2, ∃ g : Field, ¬ g = f ∧ x = canonicalName g) :
    claimCol f used2 (names.map (renameName m)) = some (canonicalName f) := by
  have hc1 : ¬ canonicalName f ∈ used2 := by
    intro hm
    obtain ⟨g, hgf, hge⟩ := hused2 _ hm
    exact hgf (canonicalName_inj f g hge).symm
  rcases horigin with ⟨u, hu, hcc⟩ | ⟨hcn, u, hu, hcc⟩
  · obtain ⟨P, Q, hPQ, hP⟩ := claimCol_decomp hcc
    have hcm := claimCol_mem hcc
    have hrnc : renameName m c = canonicalName f := renameName_of_mem hvals hfc
    rw [hPQ, List.map_append, List.map_cons, hrnc]
    refine claimCol_of_decomp f used2 (P.map (renameName m)) (canonicalName f)
      (Q.map (renameName m)) ?_ hc1 (canonical_self_match f)
    intro x hx
    obtain ⟨y, hy, rfl⟩ := List.mem_map.mp hx
    by_cases hyV : y ∈ m.map Prod.snd
    · obtain ⟨g, hg⟩ := mem_snd_exists hyV
      rw [renameName_of_mem hvals hg]
      by_cases hgf : g = f
      · subst hgf
        have hyc : y = c := mem_functional hkeys hg hfc
        subst hyc
        rcases hP y hy with h1 | h1
        · exact absurd h1 hcm.2.1
        · rw [hcm.2.2] at h1
          simp at h1
      · exact Or.inr (canonical_cross_nomatch f g (fun he => hgf he.symm))
    · rw [renameName_not_mem hyV]
      rcases hP y hy with h1 | h1
      · exact absurd (hu y h1) hyV
      · exact Or.inr h1
  · obtain ⟨P, Q, hPQ, hcP⟩ := mem_first_decomp hcn
    have hspec := claimCol_none_spec hcc
    have hrnc : renameName m c = canonicalName f := renameName_of_mem hvals hfc
    rw [hPQ, List.map_append, List.map_cons, hrnc]
    refine claimCol_of_decomp f used2 (P.map (renameName m)) (canonicalName f)
      (Q.map (renameName m)) ?_ hc1 (canonical_self_match f)
    intro x hx
    obtain ⟨y, hy, rfl⟩ := List.mem_map.mp hx
    by_cases hyV : y ∈ m.map Prod.snd
    · obtain ⟨g, hg⟩ := mem_snd_exists hyV
      rw [renameName_of_mem hvals hg]
      by_cases hgf : g = f
      · subst hgf
        have hyc : y = c := mem_functional hkeys hg hfc
        exact absurd (hyc ▸ hy) hcP
      · exact Or.inr (canonical_cross_nomatch f g (fun he => hgf he.symm))
    · rw [renameName_not_mem hyV]
      have hyn : y ∈ names := by
        rw [hPQ]
        exact List.mem_append_left _ hy
      rcases hspec y hyn with h1 | h1
      · exact absurd (hu y h1) hyV
      · exact Or.inr h1

/-- Scanning the renamed columns for an undetected field claims nothing. -/
theorem pass2_claimCol_none
    (m : List (Field × String)) (names : List String)
    (hvals : (m.map Prod.snd).Nodup)
    (f : Field) (hf : lookupF f m = none)
    (hunc : ∃ u, (∀ x ∈ u, x ∈ m.map Prod.snd) ∧ claimCol f u names = none)
    (used2 : List String) :
    claimCol f used2 (names.map (renameName m)) = none := by
  obtain ⟨u, hu, hcc⟩ := hunc
  have hspec := claimCol_none_spec hcc
  refine claimCol_eq_none ?_
  intro x hx
  obtain ⟨y, hy, rfl⟩ := List.mem_map.mp hx
  by_cases hyV : y ∈ m.map Prod.snd
  · obtain ⟨g, hg⟩ := mem_snd_exists hyV
    rw [renameName_of_mem hvals hg]
    have hgf : ¬ g = f := fun he => lookupF_ne_none_of_mem (he ▸ hg) hf
    exact Or.inr (canonical_cross_nomatch f g (fun he => hgf he.symm))
  · rw [renameName_not_mem hyV]
    rcases hspec y hy with h1 | h1
    · exact absurd (hu y h1) hyV
    · exact Or.inr h1

/-- The second pattern phase, over the renamed columns, claims the canonical
name of every detected field. -/
theorem pass2_patPhase (m : List (Field × String)) (names2 : List String)
    (hnostep : ∀ g : Field, lookupF g m = none →
      ∀ used2, claimCol g used2 names2 = none)
    (hyes : ∀ (g : Field) (cg : String), (g, cg) ∈ m →
      ∀ used2, (∀ x ∈ used2, ∃ g2 : Field, ¬ g2 = g ∧ x = canonicalName g2) →
      claimCol g used2 names2 = some (canonicalName g)) :
    ∀ (fs : List Field) (st : DetSt), fs.Nodup →
      (∀ x ∈ st.used, ∃ g2 : Field, ¬ g2 ∈ fs ∧ x = canonicalName g2) →
      (∀ g ∈ fs, lookupF g st.det = none) →
      ∀ f ∈ fs, ∀ c, (f, c) ∈ m →
        lookupF f (patPhase (dedupFirst names2) fs st).det = some (canonicalName f) := by
  intro fs
  induction fs with
  | nil => intro st _ _ _ f hf; simp at hf
  | cons g gs ih =>
    intro st hnd hused hdet f hf c hfc
    rcases List.nodup_cons.mp hnd with ⟨hg, hgs⟩
    cases hgm : lookupF g m with
    | none =>
      have hcn : claimCol g st.used (dedupFirst names2) = none := by
        rw [claimCol_dedup]
        exact hnostep g hgm st.used
      have hres : patPhase (dedupFirst names2) (g :: gs) st =
          patPhase (dedupFirst names2) gs st := by rw [patPhase, hcn]
      rw [hres]
      rcases List.mem_cons.mp hf with rfl | hf2
      · exact absurd hgm (lookupF_ne_none_of_mem hfc)
      · refine ih st hgs ?_ ?_ f hf2 c hfc
        · intro x hx
          obtain ⟨g2, hg2, he⟩ := hused x hx
          exact ⟨g2, fun hm => hg2 (List.mem_cons_of_mem g hm), he⟩
        · exact fun g2 hg2 => hdet g2 (List.mem_cons_of_mem g hg2)
    | some cg =>
      have hgm2 : (g, cg) ∈ m := lookupF_some_mem hgm
      have hcs : claimCol g st.used (dedupFirst names2) = some (canonicalName g) := by
        rw [claimCol_dedup]
        refine hyes g cg hgm2 st.used ?_
        intro x hx
        obtain ⟨g2, hg2, he⟩ := hused x hx
        exact ⟨g2, fun he2 => hg2 (he2 ▸ List.mem_cons_self g gs), he⟩
      have hres : patPhase (dedupFirst names2) (g :: gs) st =
          patPhase (dedupFirst names2) gs
            ⟨st.det ++ [(g, canonicalName g)], st.used ++ [canonicalName g]⟩ := by
        rw [patPhase, hcs]
      rw [hres]
      rcases List.mem_cons.mp hf with rfl | hf2
      · have hdet2 : lookupF f (st.det ++ [(f, canonicalName f)]) =
            some (canonicalName f) :=
          lookupF_append_self (hdet f (List.mem_cons_self f gs))
        obtain ⟨ex, hex⟩ := patPhase_det_append (dedupFirst names2) gs
          ⟨st.det ++ [(f, canonicalName f)], st.used ++ [canonicalName f]⟩
        rw [hex]
        exact lookupF_append ex hdet2
      · refine ih _ hgs ?_ ?_ f hf2 c hfc
        · intro x hx
          rcases List.mem_append.mp hx with hx1 | hx1
          · obtain ⟨g2, hg2, he⟩ := hused x hx1
            exact ⟨g2, fun hm => hg2 (List.mem_cons_of_mem g hm), he⟩
          · have hxe : x = canonicalName g := by simpa using hx1
            exact ⟨g, hg, hxe⟩
        · intro g2 hg2
          refine lookupF_append_none (hdet g2 (List.mem_cons_of_mem g hg2)) ?_
          rw [lookupF_eq_none]
          simp only [List.map_cons, List.map_nil, List.mem_singleton]
          exact fun he => hg (he ▸ hg2)

/-- C8: detection is idempotent on canonical names — detecting, renaming by
the detected mapping, then re-detecting maps every originally detected field
to the column now bearing its canonical name. -/
theorem c8_detect_idempotent (df : DF) (f : Field) (c : String)
    (h : lookupF f (detect_columns df) = some c) :
    lookupF f (detect_columns (rename_columns df (detect_columns df))) =
      some (canonicalName f) := by
  obtain ⟨hkeys, hvals, horigin, hunc⟩ := detect_spec df
  have hfc : (f, c) ∈ detect_columns df := lookupF_some_mem h
  have hpat : lookupF f
      (patPhase (dedupFirst ((rename_columns df (detect_columns df)).map Prod.fst))
        fieldOrder ⟨[], []⟩).det = some (canonicalName f) := by
    rw [rename_columns_names df (detect_columns df)]
    refine pass2_patPhase (detect_columns df)
      ((df.map Prod.fst).map (renameName (detect_columns df))) ?_ ?_
      fieldOrder ⟨[], []⟩ fieldOrder_nodup (by simp) (fun g _ => rfl)
      f (mem_fieldOrder f) c hfc
    · intro g hgm used2
      exact pass2_claimCol_none (detect_columns df) (df.map Prod.fst) hvals g hgm
        (hunc g hgm) used2
    · intro g cg hgcg used2 hu2
      exact pass2_claimCol_some (detect_columns df) (df.map Prod.fst) hkeys hvals
        g cg hgcg (horigin (g, cg) hgcg) used2 hu2
  rw [detect_columns_eq_chain (rename_columns df (detect_columns df))]
  obtain ⟨ex, hex⟩ := applyGuards_det_append
    (heuristicSteps (rename_columns df (detect_columns df)))
    (patPhase (dedupFirst ((rename_columns df (detect_columns df)).map Prod.fst))
      fieldOrder ⟨[], []⟩)
  rw [hex]
  exact lookupF_append ex hpat

/-- Witness for C8 on a frame whose columns already carry canonical names. -/
theorem c8_witness :
    lookupF .F1 (detect_columns c8df) = some "F1" ∧
    lookupF .F1 (detect_columns (rename_columns c8df (detect_columns c8df))) =
      some (canonicalName .F1) := by
  refine ⟨by decide, ?_⟩
  exact c8_detect_idempotent c8df .F1 "F1" (by decide)

end VowelSpace
